import Mathlib

/-!
A shallow embedding of `routes/princess_diaries.py`: the princess-diaries
solver (weighted interval scheduling with a transit-cost term over
Dijkstra shortest-path distances), together with theorems checking the
specification's claims against it.

Conventions of the embedding:
* Python dicts used as maps are association lists (`lookupA` / `updateA`).
* Python exceptions (`KeyError`, failing `int(...)` casts, and so on)
  are modelled by `Option`: a raised exception is `none`, propagated by
  monadic bind exactly where the Python exception would propagate.
* The unbounded `while` loops (Dijkstra's queue loop and the schedule
  reconstruction loop) take an explicit fuel argument; exhausting the
  fuel yields `none`.  A Python run that terminates corresponds to any
  sufficiently large fuel.
* Python's `heapq` pops a least element of the heap; the embedding keeps
  the queue as a list and `popMin` removes one least element under the
  same lexicographic order on `(distance, node)` pairs.
* Task records name their `end` field `stop`, since `end` is a reserved
  word in Lean.  Machine integers do not overflow in Python, so integer
  fields are plain `Int`.
-/

namespace PrincessDiaries

/-- A scalar JSON value as far as the solver's `int(...)` casts are
concerned: `vint i` is a value that Python's `int()` converts to the
integer `i`, and `vother` stands for any value on which `int()` raises. -/
inductive JVal where
  | vint (i : Int)
  | vother
deriving DecidableEq, Repr

/-- Python's `int(...)` cast: `none` models a raised exception. -/
def toIntV : JVal → Option Int
  | .vint i => some i
  | .vother => none

/-- A raw task record from the JSON payload; a `none` field models a
missing key (Python `t["k"]` raises `KeyError`). -/
structure JTask where
  name : Option String
  start : Option JVal
  stop : Option JVal
  station : Option JVal
  score : Option JVal
deriving DecidableEq, Repr

/-- A raw subway edge record `{connection: [c1, c2], fee: ...}`. -/
structure JEdge where
  c1 : Int
  c2 : Int
  fee : JVal
deriving DecidableEq, Repr

/-- The JSON payload consumed by `solve_princess_diaries`; a `none`
field models a missing key (the code uses `payload.get(...)`). -/
structure Payload where
  starting_station : Option JVal
  tasks : Option (List JTask)
  subway : Option (List JEdge)
deriving DecidableEq, Repr

/-- A normalized task, as built by the normalization loop of
`solve_princess_diaries` (`stop` is the task's `end` field). -/
structure Task where
  name : String
  start : Int
  stop : Int
  station : Int
  score : Int
deriving DecidableEq, Repr

/-- The solver's result dictionary. -/
structure SResult where
  max_score : Int
  min_fee : Int
  schedule : List String
deriving DecidableEq, Repr

/-- Effectful map over a list (the Python `for` loops that build a list
and can raise): `none` as soon as one element fails. -/
def mapMO {α β : Type} (f : α → Option β) : List α → Option (List β)
  | [] => some []
  | x :: xs => (f x).bind (fun y => (mapMO f xs).map (fun ys => y :: ys))

/-- Insert into a sorted list, before the first element not below `a`.
Together with `sortBy` this is a stable sort, hence it computes the
same list as Python's stable `list.sort(key=...)`. -/
def insertLe {α : Type} (le : α → α → Bool) (a : α) : List α → List α
  | [] => [a]
  | b :: l => if le a b then a :: b :: l else b :: insertLe le a l

/-- Stable insertion sort modelling Python's `list.sort(key=...)`. -/
def sortBy {α : Type} (le : α → α → Bool) : List α → List α
  | [] => []
  | a :: l => insertLe le a (sortBy le l)

/-- Normalization of one raw task record: each field access and each
`int(...)` cast can raise, which aborts the whole computation. -/
def normTask (t : JTask) : Option Task := do
  let name ← t.name
  let start ← t.start.bind toIntV
  let stop ← t.stop.bind toIntV
  let station ← t.station.bind toIntV
  let score ← t.score.bind toIntV
  pure ⟨name, start, stop, station, score⟩

/-- Association-list lookup, modelling Python `dict` lookup. -/
def lookupA {β : Type} : List (Int × β) → Int → Option β
  | [], _ => none
  | (k, v) :: r, u => if k = u then some v else lookupA r u

/-- Association-list update `m[k] = v`, modelling Python `dict` assignment. -/
def updateA : List (Int × Int) → Int → Int → List (Int × Int)
  | [], k, v => [(k, v)]
  | (k', v') :: r, k, v => if k' = k then (k, v) :: r else (k', v') :: updateA r k v

/-- One iteration of the `build_graph` loop: parse the fee (which can
raise) and append the two directed arcs `u→v` and `v→u` of the edge. -/
def buildStep (g : Int → List (Int × Int)) (e : JEdge) :
    Option (Int → List (Int × Int)) :=
  (toIntV e.fee).map (fun w => fun u =>
    g u ++ (if e.c1 = u then [(e.c2, w)] else [])
        ++ (if e.c2 = u then [(e.c1, w)] else []))

/-- The adjacency map built by `build_graph`: each edge contributes the
two directed arcs `u→v` and `v→u` with the same weight, keeping parallel
edges.  A failing `int(edge["fee"])` cast aborts.  A node not occurring
in any edge has the empty neighbour list (`defaultdict(list)`). -/
def build_graph (subway : List JEdge) : Option (Int → List (Int × Int)) :=
  subway.foldlM buildStep (fun _ => [])

/-- Remove one least element (lexicographic on `(distance, node)`) from
the priority queue, as `heapq.heappop` does. -/
def popMin : List (Int × Int) → Option ((Int × Int) × List (Int × Int))
  | [] => none
  | x :: xs =>
    match popMin xs with
    | none => some (x, [])
    | some (m, rest) =>
      if x.1 < m.1 ∨ (x.1 = m.1 ∧ x.2 ≤ m.2) then some (x, xs) else some (m, x :: rest)

/-- One relaxation step of Dijkstra's inner `for v, w in graph.get(u, [])`
loop: the state is the pair (priority queue, distance map). -/
def relaxOne (d : Int) (st : List (Int × Int) × List (Int × Int)) (e : Int × Int) :
    List (Int × Int) × List (Int × Int) :=
  let nd := d + e.2
  match lookupA st.2 e.1 with
  | none => ((nd, e.1) :: st.1, updateA st.2 e.1 nd)
  | some dv => if nd < dv then ((nd, e.1) :: st.1, updateA st.2 e.1 nd) else st

/-- Relax all outgoing arcs of the popped node. -/
def relaxAll (d : Int) (neighbors : List (Int × Int))
    (pq dist : List (Int × Int)) : List (Int × Int) × List (Int × Int) :=
  neighbors.foldl (relaxOne d) (pq, dist)

/-- The main loop of `dijkstra`, with fuel.  Popping a stale entry
(`d != dist[u]`) skips it; a popped node missing from `dist` would be a
Python `KeyError` (it cannot actually happen, see the invariants). -/
def dijkstraLoop (g : Int → List (Int × Int)) :
    Nat → List (Int × Int) → List (Int × Int) → Option (List (Int × Int))
  | 0, pq, dist =>
    match popMin pq with
    | none => some dist
    | some _ => none
  | fuel + 1, pq, dist =>
    match popMin pq with
    | none => some dist
    | some ((d, u), pq') =>
      match lookupA dist u with
      | none => none
      | some du =>
        if du = d then
          let s := relaxAll d (g u) pq' dist
          dijkstraLoop g fuel s.1 s.2
        else
          dijkstraLoop g fuel pq' dist

/-- Single-source Dijkstra from `start`: `dist = {start: 0}`,
`pq = [(0, start)]`. -/
def dijkstra (fuel : Nat) (start : Int) (g : Int → List (Int × Int)) :
    Option (List (Int × Int)) :=
  dijkstraLoop g fuel [(0, start)] [(start, 0)]

/-- The table of `all_pairs_needed_dists`: one Dijkstra run per needed
station, keyed by the source. -/
def all_pairs_needed_dists (fuel : Nat) (needed : List Int)
    (g : Int → List (Int × Int)) : Option (List (Int × List (Int × Int))) :=
  mapMO (fun u => (dijkstra fuel u g).map (fun m => (u, m))) needed

/-- The solver's distance helper `d(u, v)`: `0` on equal endpoints,
otherwise the table lookup `distances[u][v]` (a missing key raises). -/
def dLook (dists : List (Int × List (Int × Int))) (u v : Int) : Option Int :=
  if u = v then some 0 else (lookupA dists u).bind (fun m => lookupA m v)

/-- The DP sort key: ascending `(end, start, name)`. -/
def keyLe (a b : Task) : Bool :=
  a.stop < b.stop ∨ (a.stop = b.stop ∧
    (a.start < b.start ∨ (a.start = b.start ∧ a.name ≤ b.name)))

/-- The output sort key: ascending `(start, end, name)`. -/
def keyLeOut (a b : Task) : Bool :=
  a.start < b.start ∨ (a.start = b.start ∧
    (a.stop < b.stop ∨ (a.stop = b.stop ∧ a.name ≤ b.name)))

/-- The task list sorted for the DP (`tasks.sort(key=...)`). -/
def sortTasks (l : List Task) : List Task := sortBy keyLe l

/-- The 1-based indexing `tasks[i-1]` used throughout the DP. -/
def taskAt (ts : List Task) (i : Nat) : Task :=
  ts.getD (i - 1) ⟨"", 0, 0, 0, 0⟩

/-- The sorted end times `ends`. -/
def endsOf (ts : List Task) : List Int := ts.map (·.stop)

/-- The loop of `bisect.bisect_right` (CPython's binary search), with
fuel; each iteration strictly shrinks `hi - lo`. -/
def bisectLoop (a : List Int) (x : Int) : Nat → Nat → Nat → Nat
  | 0, lo, _ => lo
  | fuel + 1, lo, hi =>
    if lo < hi then
      if x < a.getD ((lo + hi) / 2) 0 then bisectLoop a x fuel lo ((lo + hi) / 2)
      else bisectLoop a x fuel ((lo + hi) / 2 + 1) hi
    else lo

/-- Python's `bisect_right(a, x)`: `a.length` iterations of fuel always
suffice since `hi - lo` shrinks every round. -/
def bisect_right (a : List Int) (x : Int) : Nat :=
  bisectLoop a x (a.length + 1) 0 a.length

/-- The predecessor index `p[i] = bisect_right(ends, start_i) - 1`,
re-shifted to 1-based (`0` when no task's end is `<= start_i`). -/
def pFun (ts : List Task) (i : Nat) : Nat :=
  bisect_right (endsOf ts) (taskAt ts i).start

/-- The DP state: the four arrays `dp_score`, `dp_fee`, `last_idx` and
`choice`, as total maps from index to value. -/
structure DpSt where
  score : Nat → Int
  fee : Nat → Int
  last : Nat → Int
  choice : Nat → Nat

/-- The initial DP arrays: scores and fees `0`, `last_idx` `-1`,
`choice` `0`, at every index. -/
def dpInit : DpSt := ⟨fun _ => 0, fun _ => 0, fun _ => -1, fun _ => 0⟩

/-- Pointwise array write. -/
def setAt {α : Type} (f : Nat → α) (i : Nat) (v : α) : Nat → α :=
  fun k => if k = i then v else f k

/-- The fee of the take option at index `i`: either a fresh round trip
`d(s0,si) + d(si,s0)` when the predecessor state is the empty schedule,
or `prev_fee - d(slast,s0) + d(slast,si) + d(si,s0)`. -/
def takeFee (ts : List Task) (dists : List (Int × List (Int × Int)))
    (s0 : Int) (st : DpSt) (i : Nat) : Option Int :=
  let t := taskAt ts i
  let j := pFun ts i
  let si := t.station
  if st.last j = -1 then do
    let a ← dLook dists s0 si
    let b ← dLook dists si s0
    pure (a + b)
  else
    let slast := (taskAt ts (st.last j).toNat).station
    do
      let x ← dLook dists slast s0
      let y ← dLook dists slast si
      let z ← dLook dists si s0
      pure (st.fee j - x + y + z)

/-- One DP iteration (loop body for index `i`): compare the skip option
(the state at `i-1`) with the take option (extend the state at `p[i]`),
preferring strictly higher score, then strictly lower fee. -/
def dpStep (ts : List Task) (dists : List (Int × List (Int × Int)))
    (s0 : Int) (st : DpSt) (i : Nat) : Option DpSt := do
  let t := taskAt ts i
  let j := pFun ts i
  let take_score := st.score j + t.score
  let tf ← takeFee ts dists s0 st i
  if take_score > st.score (i - 1) ∨
      (take_score = st.score (i - 1) ∧ tf < st.fee (i - 1)) then
    pure ⟨setAt st.score i take_score, setAt st.fee i tf,
          setAt st.last i (Int.ofNat i), setAt st.choice i 1⟩
  else
    pure ⟨setAt st.score i (st.score (i - 1)), setAt st.fee i (st.fee (i - 1)),
          setAt st.last i (st.last (i - 1)), setAt st.choice i 0⟩

/-- The DP loop `for i in range(1, n + 1)` run up to index `i`. -/
def dpRun (ts : List Task) (dists : List (Int × List (Int × Int)))
    (s0 : Int) : Nat → Option DpSt
  | 0 => some dpInit
  | i + 1 => (dpRun ts dists s0 i).bind (fun st => dpStep ts dists s0 st (i + 1))

/-- The backward reconstruction loop, with fuel: from `i`, record `i`
and jump to `p[i]` when the DP took `i`, otherwise move to `i - 1`.
Accumulating with cons produces the same list as Python's
append-then-reverse. -/
def reconLoop (choiceF : Nat → Nat) (pf : Nat → Nat) :
    Nat → Nat → List Nat → Option (List Nat)
  | 0, i, acc => if i = 0 then some acc else none
  | fuel + 1, i, acc =>
    if i = 0 then some acc
    else if choiceF i = 1 then reconLoop choiceF pf fuel (pf i) (i :: acc)
    else reconLoop choiceF pf fuel (i - 1) acc

/-- The solver after input normalization: shortest paths, DP,
reconstruction, and final `(start, end, name)` ordering of the schedule. -/
def solveCore (fuel : Nat) (s0 : Int) (tasks0 : List Task)
    (subway : List JEdge) : Option SResult := do
  let g ← build_graph subway
  let needed := (s0 :: tasks0.map (·.station)).dedup
  let dists ← all_pairs_needed_dists fuel needed g
  let ts := sortTasks tasks0
  let n := ts.length
  let st ← dpRun ts dists s0 n
  let idxs ← reconLoop st.choice (pFun ts) fuel n []
  let selected := sortBy keyLeOut (idxs.map (taskAt ts))
  pure ⟨st.score n, st.fee n, selected.map (·.name)⟩

/-- The full solver `solve_princess_diaries`.  Field order follows the
Python code: `tasks` and `subway` default to `[]` when missing,
`int(payload.get("starting_station"))` runs before the empty-tasks
early return, then tasks are normalized and the core solver runs. -/
def solve_princess_diaries (fuel : Nat) (p : Payload) : Option SResult := do
  let tasks_raw := p.tasks.getD []
  let subway := p.subway.getD []
  let jss ← p.starting_station
  let s0 ← toIntV jss
  if tasks_raw = [] then
    pure ⟨0, 0, []⟩
  else do
    let tasks0 ← mapMO normTask tasks_raw
    solveCore fuel s0 tasks0 subway

/-- The Flask route handler, reduced to its control flow: non-JSON
requests get status 415; a raised exception inside the solver is caught
and becomes a status-400 client error; otherwise status 200 with the
result. -/
def princess_diaries_post (fuel : Nat) (is_json : Bool) (p : Payload) :
    Nat × Option SResult :=
  if ¬is_json then (415, none)
  else
    match solve_princess_diaries fuel p with
    | some r => (200, some r)
    | none => (400, none)

/-! Specification-side notions used to state the claims. -/

/-- Two tasks do not overlap: one's end time is at most the other's
start time (touching at a boundary is allowed). -/
def nonOverlap (a b : Task) : Prop := a.stop ≤ b.start ∨ b.stop ≤ a.start

instance (a b : Task) : Decidable (nonOverlap a b) := by
  unfold nonOverlap; infer_instance

/-- Total score of a list of tasks. -/
def sumScores (l : List Task) : Int := (l.map (·.score)).sum

/-- Inner legs of a tour: consecutive inter-task distances, then the
return leg from the last task's station home. -/
def tourLegs (dists : List (Int × List (Int × Int))) (s0 : Int) :
    Task → List Task → Option Int
  | t, [] => dLook dists t.station s0
  | t, u :: rest =>
    (dLook dists t.station u.station).bind (fun l =>
      (tourLegs dists s0 u rest).map (fun r => l + r))

/-- The round-trip tour fee of a selection, visited in the order given
(callers pass chronological order): home to the first task's station,
consecutive inter-task legs, and the last station back home, all taken
from the distance table.  This states the claims' tour-fee notion. -/
def tourFee (dists : List (Int × List (Int × Int))) (s0 : Int) :
    List Task → Option Int
  | [] => some 0
  | t :: rest =>
    (dLook dists s0 t.station).bind (fun a =>
      (tourLegs dists s0 t rest).map (fun b => a + b))

/-- The distance table the solver computes for a payload (the stages of
`solve_princess_diaries` up to and including `all_pairs_needed_dists`),
used to state tour fees of alternative schedules. -/
def tableFor (fuel : Nat) (p : Payload) :
    Option (List (Int × List (Int × Int))) := do
  let jss ← p.starting_station
  let s0 ← toIntV jss
  let tasks0 ← mapMO normTask (p.tasks.getD [])
  let g ← build_graph (p.subway.getD [])
  all_pairs_needed_dists fuel ((s0 :: tasks0.map (·.station)).dedup) g

/-! Concrete inputs used by counterexamples and witnesses. -/

/-- Shorthand for a fully well-formed raw task record. -/
def jt (name : String) (s e st sc : Int) : JTask :=
  ⟨some name, some (.vint s), some (.vint e), some (.vint st), some (.vint sc)⟩

/-- Payload with two equal-score overlapping tasks `A`, `B` and a later
task `C`: the DP keeps only the cheaper prefix `{A}`, but the optimal
completion of score 10 is `{B, C}` with a cheaper tour. -/
def cex1 : Payload :=
  ⟨some (.vint 0),
   some [jt "A" 0 2 1 5, jt "B" 1 3 2 5, jt "C" 4 5 3 5],
   some [⟨0, 1, .vint 1⟩, ⟨0, 2, .vint 2⟩, ⟨2, 3, .vint 1⟩, ⟨1, 3, .vint 10⟩]⟩

/-- The normalized tasks of `cex1`. -/
def cexTaskA : Task := ⟨"A", 0, 2, 1, 5⟩

/-- Task `B` of `cex1`. -/
def cexTaskB : Task := ⟨"B", 1, 3, 2, 5⟩

/-- Task `C` of `cex1`. -/
def cexTaskC : Task := ⟨"C", 4, 5, 3, 5⟩

/-- Payload with a task whose `start` exceeds its `end` (`b`): the DP
reads not-yet-computed states through `p[i] >= i`, and reconstruction
then selects overlapping tasks with an inconsistent score. -/
def cex2 : Payload :=
  ⟨some (.vint 7),
   some [jt "a" (-5) 0 7 0, jt "b" 3 1 7 5, jt "c" (-5) 2 7 1,
         jt "d" 0 3 7 6, jt "e" 1 4 7 2],
   some []⟩

/-- The normalized tasks of `cex2`, in input (= sorted) order. -/
def cex2a : Task := ⟨"a", -5, 0, 7, 0⟩

/-- Task `b` of `cex2` (degenerate: `start > end`). -/
def cex2b : Task := ⟨"b", 3, 1, 7, 5⟩

/-- Task `c` of `cex2`. -/
def cex2c : Task := ⟨"c", -5, 2, 7, 1⟩

/-- Task `d` of `cex2`. -/
def cex2d : Task := ⟨"d", 0, 3, 7, 6⟩

/-- Task `e` of `cex2`. -/
def cex2e : Task := ⟨"e", 1, 4, 7, 2⟩

/-- The normalized task list of `cex2`. -/
def cex2norm : List Task := [cex2a, cex2b, cex2c, cex2d, cex2e]

/-- Empty task list but no `starting_station` key. -/
def cex5 : Payload := ⟨none, some [], some []⟩

/-- A payload whose single task sits at a station unreachable from the
starting station (no subway edges at all). -/
def cexDisc : Payload := ⟨some (.vint 1), some [jt "T" 0 1 2 5], some []⟩

/-- A payload with the required `tasks` key missing entirely. -/
def cex9 : Payload := ⟨some (.vint 5), none, none⟩

/-- A well-formed one-task payload (task at the home station), used by
witnesses of the general schedule theorems. -/
def wPay : Payload := ⟨some (.vint 0), some [jt "w" 0 1 0 3], some []⟩

/-- The normalized task of `wPay`. -/
def wTask1 : Task := ⟨"w", 0, 1, 0, 3⟩

/-- Cost-annotated reachability in an adjacency map: `Reaches g a b c`
holds when some walk from `a` to `b` over arcs of `g` has total cost
`c`.  This is the specification against which Dijkstra is verified. -/
inductive Reaches (g : Int → List (Int × Int)) : Int → Int → Int → Prop where
  | refl (a : Int) : Reaches g a a 0
  | step {a b c : Int} {w cost : Int} :
      Reaches g a b cost → (c, w) ∈ g b → Reaches g a c (cost + w)

/-- The Dijkstra loop invariant: every distance entry is the cost of an
actual walk from the source; every entry either still has a fresh queue
entry or is edge-closed (all neighbours have entries within the relaxed
bound); and the source has an entry at most 0. -/
def DijkInv (g : Int → List (Int × Int)) (s : Int)
    (pq dist : List (Int × Int)) : Prop :=
  (∀ x dx, lookupA dist x = some dx → Reaches g s x dx) ∧
  (∀ x dx, lookupA dist x = some dx → ((dx, x) ∈ pq ∨
    ∀ vw ∈ g x, ∃ dv, lookupA dist vw.1 = some dv ∧ dv ≤ dx + vw.2)) ∧
  (∃ ds, lookupA dist s = some ds ∧ ds ≤ 0)

/-- A two-node subway used by the `C7` witness. -/
def wSubway : List JEdge := [⟨1, 2, .vint 5⟩]

/-- Its adjacency map. -/
def wG : Int → List (Int × Int) := (build_graph wSubway).getD (fun _ => [])

/-- The distance map from node 1. -/
def wDa : List (Int × Int) := (dijkstra 10 1 wG).getD []

/-- The distance map from node 2. -/
def wDb : List (Int × Int) := (dijkstra 10 2 wG).getD []

/-- A small distance table with an actual `(1, 2)` entry, and a task
list for exercising the take-option formula. -/
def wTable : List (Int × List (Int × Int)) := [(1, [(2, 7)])]

/-- A one-task list for the `C3` witness. -/
def wTs : List Task := [⟨"t", 0, 1, 4, 2⟩]

/-- A distance table covering stations `0` and `4` for the `C3` witness. -/
def wDists : List (Int × List (Int × Int)) :=
  [(0, [(0, 0), (4, 3)]), (4, [(4, 0), (0, 3)])]

/-- Auxiliary: if one element of a list fails under `f`, the whole
effectful map fails. -/
theorem mapMO_eq_none_of_mem {α β : Type} {f : α → Option β} {l : List α}
    {a : α} (ha : a ∈ l) (hf : f a = none) : mapMO f l = none := by
  induction l with
  | nil => cases ha
  | cons x xs ih =>
    rcases List.mem_cons.mp ha with rfl | hmem
    · show (f a).bind _ = none
      rw [hf]
      rfl
    · show (f x).bind _ = none
      cases hfx : f x with
      | none => rfl
      | some y =>
        show (mapMO f xs).map _ = none
        rw [ih hmem]
        rfl

/-- C1 (counterexample): on `cex1` the solver reports `max_score = 10`
with `min_fee = 8`, yet the non-overlapping subset `{B, C}` also scores
10 and its chronological round trip costs only 6: the reported fee is
not minimal among maximum-score subsets. -/
theorem C1_counterexample :
    solve_princess_diaries 30 cex1 = some ⟨10, 8, ["A", "C"]⟩ ∧
    List.Pairwise nonOverlap [cexTaskB, cexTaskC] ∧
    List.Subperm [cexTaskB, cexTaskC] [cexTaskA, cexTaskB, cexTaskC] ∧
    mapMO normTask (cex1.tasks.getD []) = some [cexTaskA, cexTaskB, cexTaskC] ∧
    sumScores [cexTaskB, cexTaskC] = 10 ∧
    (tableFor 30 cex1).bind (fun T => tourFee T 0 [cexTaskB, cexTaskC]) = some 6 ∧
    (6 : Int) < 8 := by
  refine ⟨by decide, by decide, ?_, by decide, by decide, by decide, by decide⟩
  exact List.Sublist.subperm (by decide)

/-- C2 (counterexample): on `cex2` (which contains a task with
`start > end`) the solver returns the schedule `["d", "e", "b"]`, and
the two selected tasks named `d` and `e` overlap: `d = [0, 3]` and
`e = [1, 4]` satisfy neither `end ≤ start` inequality. -/
theorem C2_counterexample :
    solve_princess_diaries 30 cex2 = some ⟨7, 0, ["d", "e", "b"]⟩ ∧
    mapMO normTask (cex2.tasks.getD []) = some cex2norm ∧
    cex2d ∈ cex2norm ∧ cex2e ∈ cex2norm ∧
    cex2d.name ∈ ["d", "e", "b"] ∧ cex2e.name ∈ ["d", "e", "b"] ∧
    (∀ t ∈ cex2norm, t.name = "d" → t = cex2d) ∧
    (∀ t ∈ cex2norm, t.name = "e" → t = cex2e) ∧
    ¬ nonOverlap cex2d cex2e := by
  refine ⟨by decide, by decide, by decide, by decide, by decide, by decide,
    ?_, ?_, by decide⟩ <;> decide

/-- C10 (counterexample): on `cex2` the solver returns normally with
`max_score = 7`, but the tasks named in the returned schedule
(`d`, `e`, `b`) have scores summing to 13, not 7. -/
theorem C10_counterexample :
    solve_princess_diaries 30 cex2 = some ⟨7, 0, ["d", "e", "b"]⟩ ∧
    mapMO normTask (cex2.tasks.getD []) = some cex2norm ∧
    (∀ t ∈ cex2norm, t.name = "d" → t = cex2d) ∧
    (∀ t ∈ cex2norm, t.name = "e" → t = cex2e) ∧
    (∀ t ∈ cex2norm, t.name = "b" → t = cex2b) ∧
    sumScores [cex2d, cex2e, cex2b] = 13 ∧ ¬ ((13 : Int) = 7) := by
  refine ⟨by decide, by decide, ?_, ?_, ?_, by decide, by decide⟩ <;> decide

/-- C5 (counterexample): `cex5` has an empty task list, yet the solver
raises (returns `none`) because `int(payload.get("starting_station"))`
runs before the empty-tasks early return — so the claim's "for every
payload whose task list is empty" fails as stated. -/
theorem C5_counterexample :
    cex5.tasks = some [] ∧ solve_princess_diaries 10 cex5 = none := by
  decide

/-- C5 (amended): provided the `starting_station` value is present and
parses as an integer, a payload with an empty task list yields
`{max_score: 0, min_fee: 0, schedule: []}`, regardless of the content
of the subway edge list and of the fuel. -/
theorem C5_empty_tasks (fuel : Nat) (j : JVal) (k : Int)
    (hj : toIntV j = some k) (subway : Option (List JEdge)) :
    solve_princess_diaries fuel ⟨some j, some [], subway⟩ = some ⟨0, 0, []⟩ := by
  unfold solve_princess_diaries
  simp [hj]

/-- C5 (witness): the amended statement at a concrete input: starting
station `3`, an arbitrary malformed subway list. -/
theorem C5_witness :
    solve_princess_diaries 4 ⟨some (.vint 3), some [], some [⟨0, 1, .vother⟩]⟩ =
      some ⟨0, 0, []⟩ :=
  C5_empty_tasks 4 (.vint 3) 3 rfl (some [⟨0, 1, .vother⟩])

/-- C6: the distance used by the scheduler from any location `x` to
itself is `0` for every distance table — in particular also when the
edge list contains a self-loop edge at `x` with a nonzero fee, since
the `u = v` convention short-circuits the table lookup. -/
theorem C6_self_distance (dists : List (Int × List (Int × Int))) (x : Int) :
    dLook dists x x = some 0 := by
  unfold dLook
  simp

/-- C8: a failed required distance lookup surfaces as an error instead
of being defaulted: (1) any distance `d(u, v)` the scheduler obtains for
distinct `u`, `v` comes from an actual table entry, never from a
default; (2) on the concrete disconnected payload `cexDisc` the solver
propagates the failure (`none`); (3) the route then reports a
client-error status 400 rather than any result. -/
theorem C8_missing_distance :
    (∀ (dists : List (Int × List (Int × Int))) (u v : Int), u ≠ v →
      ∀ res, dLook dists u v = some res →
        ∃ m, lookupA dists u = some m ∧ lookupA m v = some res) ∧
    solve_princess_diaries 10 cexDisc = none ∧
    princess_diaries_post 10 true cexDisc = (400, none) := by
  refine ⟨?_, by decide, by decide⟩
  intro dists u v huv res h
  unfold dLook at h
  rw [if_neg huv] at h
  rcases Option.bind_eq_some.mp h with ⟨m, hm, hv⟩
  exact ⟨m, hm, hv⟩

/-- C8 (witness): the general part of `C8_missing_distance` applied to
a concrete table that does contain the entry `(1, 2) ↦ 7`. -/
theorem C8_witness :
    ∃ m, lookupA wTable 1 = some m ∧ lookupA m 2 = some 7 :=
  C8_missing_distance.1 wTable 1 2 (by decide) 7 (by decide)

/-- C9 (counterexample): the payload `cex9` is missing the required
`tasks` field, yet the solver substitutes the default `[]` and returns
the trivial zero result instead of failing with a client-input error. -/
theorem C9_counterexample :
    cex9.tasks = none ∧ solve_princess_diaries 10 cex9 = some ⟨0, 0, []⟩ := by
  decide

/-- C9 (amended): a missing or non-integer `starting_station`, and any
per-task missing field or non-numeric value, make the solver fail with
an error (`none`); but the `tasks` and `subway` keys themselves are
defaulted to `[]` when missing rather than treated as errors. -/
theorem C9_malformed_input :
    (∀ fuel tasks subway,
      solve_princess_diaries fuel ⟨none, tasks, subway⟩ = none) ∧
    (∀ fuel j tasks subway, toIntV j = none →
      solve_princess_diaries fuel ⟨some j, tasks, subway⟩ = none) ∧
    (∀ fuel j k ts subway t, toIntV j = some k → t ∈ ts → normTask t = none →
      solve_princess_diaries fuel ⟨some j, some ts, subway⟩ = none) := by
  refine ⟨?_, ?_, ?_⟩
  · intro fuel tasks subway
    rfl
  · intro fuel j tasks subway hj
    unfold solve_princess_diaries
    simp [hj]
  · intro fuel j k ts subway t hj ht hnone
    unfold solve_princess_diaries
    have hne : ts ≠ [] := by rintro rfl; cases ht
    simp [hj, hne, mapMO_eq_none_of_mem ht hnone]

/-- C9 (witness): the amended statement at concrete inputs: a task with
a non-numeric `score` makes the solver fail. -/
theorem C9_witness :
    solve_princess_diaries 3
      ⟨some (.vint 0), some [⟨some "x", some (.vint 0), some (.vint 1),
        some (.vint 0), some .vother⟩], none⟩ = none :=
  C9_malformed_input.2.2 3 (.vint 0) 0 _ none _ rfl (List.mem_singleton.mpr rfl) rfl

/-- C3: the take option at index `i` extends the DP state read at
`p[i]`: when that state's last-task sentinel is `-1` the candidate fee
is `d(s0, si) + d(si, s0)`; otherwise, with `last` the station of that
state's last task, it is `prev_fee - d(last, s0) + d(last, si) +
d(si, s0)`; and whenever the DP chooses the take option, the new score
is the predecessor state's score plus task `i`'s score. -/
theorem C3_take_option (ts : List Task) (dists : List (Int × List (Int × Int)))
    (s0 : Int) (st : DpSt) (i : Nat) :
    (st.last (pFun ts i) = -1 →
      takeFee ts dists s0 st i =
        (dLook dists s0 (taskAt ts i).station).bind (fun a =>
          (dLook dists (taskAt ts i).station s0).bind (fun b => some (a + b)))) ∧
    (st.last (pFun ts i) ≠ -1 →
      takeFee ts dists s0 st i =
        (dLook dists (taskAt ts (st.last (pFun ts i)).toNat).station s0).bind
          (fun x =>
            (dLook dists (taskAt ts (st.last (pFun ts i)).toNat).station
                (taskAt ts i).station).bind (fun y =>
              (dLook dists (taskAt ts i).station s0).bind (fun z =>
                some (st.fee (pFun ts i) - x + y + z))))) ∧
    (∀ st', dpStep ts dists s0 st i = some st' → st'.choice i = 1 →
      st'.score i = st.score (pFun ts i) + (taskAt ts i).score) := by
  refine ⟨?_, ?_, ?_⟩
  · intro hlast
    unfold takeFee
    rw [if_pos hlast]
    rfl
  · intro hlast
    unfold takeFee
    rw [if_neg hlast]
    rfl
  · intro st' hstep hchoice
    unfold dpStep at hstep
    cases htf : takeFee ts dists s0 st i with
    | none => rw [htf] at hstep; exact absurd hstep (by simp)
    | some tf =>
      rw [htf] at hstep
      simp only [Option.bind_eq_bind, Option.some_bind, Option.pure_def,
        Option.some_inj] at hstep
      split at hstep
      · injection hstep with h
        subst h
        simp [setAt]
      · injection hstep with h
        subst h
        simp only [setAt, if_pos rfl] at hchoice
        cases hchoice

/-- C3 (witness): the take-option fee formula evaluated on concrete
data: one task at station 4, home 0, distance 3 each way, so the
first-task round trip is `3 + 3`. -/
theorem C3_witness :
    takeFee wTs wDists 0 dpInit 1 =
      (dLook wDists 0 (taskAt wTs 1).station).bind (fun a =>
        (dLook wDists (taskAt wTs 1).station 0).bind (fun b => some (a + b))) :=
  (C3_take_option wTs wDists 0 dpInit 1).1 rfl

/-! Theory of the stable insertion sort. -/

/-- Inserting permutes with consing. -/
theorem insertLe_perm {α : Type} (le : α → α → Bool) (a : α) (l : List α) :
    (insertLe le a l).Perm (a :: l) := by
  induction l with
  | nil => exact List.Perm.refl _
  | cons b l ih =>
    unfold insertLe
    by_cases h : le a b
    · rw [if_pos h]
    · rw [if_neg h]
      exact ((ih.cons b).trans (List.Perm.swap a b l))

/-- The sort permutes its input. -/
theorem sortBy_perm {α : Type} (le : α → α → Bool) (l : List α) :
    (sortBy le l).Perm l := by
  induction l with
  | nil => exact List.Perm.refl _
  | cons a l ih => exact (insertLe_perm le a (sortBy le l)).trans (ih.cons a)

/-- Members of an insertion. -/
theorem mem_insertLe {α : Type} {le : α → α → Bool} {a x : α} {l : List α}
    (hx : x ∈ insertLe le a l) : x = a ∨ x ∈ l :=
  List.mem_cons.mp ((insertLe_perm le a l).mem_iff.mp hx)

/-- Inserting preserves sortedness, given totality and transitivity. -/
theorem pairwise_insertLe {α : Type} {le : α → α → Bool}
    (htot : ∀ a b, le a b = true ∨ le b a = true)
    (htr : ∀ a b c, le a b = true → le b c = true → le a c = true)
    {a : α} {l : List α} (hl : l.Pairwise (fun x y => le x y = true)) :
    (insertLe le a l).Pairwise (fun x y => le x y = true) := by
  induction l with
  | nil => simp [insertLe]
  | cons b l ih =>
    rcases List.pairwise_cons.mp hl with ⟨hb, hl'⟩
    unfold insertLe
    by_cases h : le a b
    · rw [if_pos h]
      refine List.pairwise_cons.mpr ⟨?_, hl⟩
      intro y hy
      rcases List.mem_cons.mp hy with rfl | hy'
      · exact h
      · exact htr a b y h (hb y hy')
    · rw [if_neg h]
      refine List.pairwise_cons.mpr ⟨?_, ih hl'⟩
      intro y hy
      rcases mem_insertLe hy with hya | hy'
      · rw [hya]
        rcases htot a b with h' | h'
        · exact absurd h' h
        · exact h'
      · exact hb y hy'

/-- The sort sorts, given totality and transitivity of the comparison. -/
theorem pairwise_sortBy {α : Type} {le : α → α → Bool}
    (htot : ∀ a b, le a b = true ∨ le b a = true)
    (htr : ∀ a b c, le a b = true → le b c = true → le a c = true)
    (l : List α) : (sortBy le l).Pairwise (fun x y => le x y = true) := by
  induction l with
  | nil => simp [sortBy]
  | cons a l ih => exact pairwise_insertLe htot htr ih

/-- The DP comparison is total. -/
theorem keyLe_total (a b : Task) : keyLe a b = true ∨ keyLe b a = true := by
  unfold keyLe
  simp only [decide_eq_true_eq]
  rcases lt_trichotomy a.stop b.stop with h | h | h
  · exact Or.inl (Or.inl h)
  · rcases lt_trichotomy a.start b.start with h' | h' | h'
    · exact Or.inl (Or.inr ⟨h, Or.inl h'⟩)
    · rcases le_total a.name b.name with h'' | h''
      · exact Or.inl (Or.inr ⟨h, Or.inr ⟨h', h''⟩⟩)
      · exact Or.inr (Or.inr ⟨h.symm, Or.inr ⟨h'.symm, h''⟩⟩)
    · exact Or.inr (Or.inr ⟨h.symm, Or.inl h'⟩)
  · exact Or.inr (Or.inl h)

/-- The DP comparison is transitive. -/
theorem keyLe_trans (a b c : Task) (hab : keyLe a b = true)
    (hbc : keyLe b c = true) : keyLe a c = true := by
  unfold keyLe at hab hbc ⊢
  simp only [decide_eq_true_eq] at hab hbc ⊢
  rcases hab with h1 | ⟨h1, h1'⟩ <;> rcases hbc with h2 | ⟨h2, h2'⟩
  · exact Or.inl (h1.trans h2)
  · exact Or.inl (h2 ▸ h1)
  · exact Or.inl (h1 ▸ h2)
  · refine Or.inr ⟨h1.trans h2, ?_⟩
    rcases h1' with g1 | ⟨g1, g1'⟩ <;> rcases h2' with g2 | ⟨g2, g2'⟩
    · exact Or.inl (g1.trans g2)
    · exact Or.inl (g2 ▸ g1)
    · exact Or.inl (g1 ▸ g2)
    · exact Or.inr ⟨g1.trans g2, g1'.trans g2'⟩

/-- A sorted task list has nondecreasing end times, position-wise. -/
theorem stop_mono_of_sorted {ts : List Task} (d : Task)
    (hs : ts.Pairwise (fun x y => keyLe x y = true)) {i j : Nat}
    (hij : i ≤ j) (hj : j < ts.length) :
    (ts.getD i d).stop ≤ (ts.getD j d).stop := by
  rcases Nat.lt_or_ge i j with hlt | hge
  · have h := List.pairwise_iff_getElem.mp hs i j (hlt.trans hj) hj hlt
    unfold keyLe at h
    simp only [decide_eq_true_eq] at h
    rw [List.getD_eq_getElem ts d (hlt.trans hj), List.getD_eq_getElem ts d hj]
    rcases h with h | ⟨h, _⟩
    · exact le_of_lt h
    · exact le_of_eq h
  · have : i = j := le_antisymm hij hge
    subst this
    exact le_refl _

/-! Theory of `bisect_right`. -/

/-- Loop invariant of the binary search: with enough fuel, a valid
bracket `[lo, hi]` whose outside is already classified narrows to the
boundary between elements `≤ x` and elements `> x`. -/
theorem bisectLoop_spec (a : List Int) (x : Int)
    (hs : a.Pairwise (· ≤ ·)) :
    ∀ fuel lo hi, hi ≤ a.length → lo ≤ hi → hi - lo ≤ fuel →
    (∀ j, j < lo → a.getD j 0 ≤ x) →
    (∀ j, hi ≤ j → j < a.length → ¬ a.getD j 0 ≤ x) →
    lo ≤ bisectLoop a x fuel lo hi ∧ bisectLoop a x fuel lo hi ≤ hi ∧
    (∀ j, j < bisectLoop a x fuel lo hi → a.getD j 0 ≤ x) ∧
    (∀ j, bisectLoop a x fuel lo hi ≤ j → j < a.length → ¬ a.getD j 0 ≤ x) := by
  intro fuel
  induction fuel with
  | zero =>
    intro lo hi hhi hlohi hfuel hpre hsuf
    have : lo = hi := by omega
    subst this
    exact ⟨le_refl _, le_refl _, hpre, hsuf⟩
  | succ fuel ih =>
    intro lo hi hhi hlohi hfuel hpre hsuf
    by_cases hlt : lo < hi
    · have hmidlt : (lo + hi) / 2 < hi := by omega
      have hmidge : lo ≤ (lo + hi) / 2 := by omega
      have hmidlen : (lo + hi) / 2 < a.length := lt_of_lt_of_le hmidlt hhi
      by_cases hx : x < a.getD ((lo + hi) / 2) 0
      · have heq : bisectLoop a x (fuel + 1) lo hi =
            bisectLoop a x fuel lo ((lo + hi) / 2) := by
          simp only [bisectLoop]
          rw [if_pos hlt, if_pos hx]
        rw [heq]
        have hsuf' : ∀ j, (lo + hi) / 2 ≤ j → j < a.length → ¬ a.getD j 0 ≤ x := by
          intro j hj hjlen hle
          have hmono : a.getD ((lo + hi) / 2) 0 ≤ a.getD j 0 := by
            rw [List.getD_eq_getElem a 0 hmidlen, List.getD_eq_getElem a 0 hjlen]
            rcases Nat.lt_or_ge ((lo + hi) / 2) j with h' | h'
            · exact List.pairwise_iff_getElem.mp hs _ _ hmidlen hjlen h'
            · have : (lo + hi) / 2 = j := by omega
              subst this
              exact le_refl _
          exact absurd (le_trans hmono hle) (not_le.mpr hx)
        have h := ih lo ((lo + hi) / 2) (le_of_lt hmidlen) hmidge (by omega) hpre hsuf'
        exact ⟨h.1, le_trans h.2.1 (le_of_lt hmidlt), h.2.2⟩
      · have heq : bisectLoop a x (fuel + 1) lo hi =
            bisectLoop a x fuel ((lo + hi) / 2 + 1) hi := by
          simp only [bisectLoop]
          rw [if_pos hlt, if_neg hx]
        rw [heq]
        have hpre' : ∀ j, j < (lo + hi) / 2 + 1 → a.getD j 0 ≤ x := by
          intro j hj
          have hjlen : j < a.length := by omega
          have hmono : a.getD j 0 ≤ a.getD ((lo + hi) / 2) 0 := by
            rw [List.getD_eq_getElem a 0 hmidlen, List.getD_eq_getElem a 0 hjlen]
            rcases Nat.lt_or_ge j ((lo + hi) / 2) with h' | h'
            · exact List.pairwise_iff_getElem.mp hs _ _ hjlen hmidlen h'
            · have : j = (lo + hi) / 2 := by omega
              subst this
              exact le_refl _
          exact le_trans hmono (not_lt.mp hx)
        have h := ih ((lo + hi) / 2 + 1) hi hhi (by omega) (by omega) hpre' hsuf
        exact ⟨le_trans (by omega) h.1, h.2.1, h.2.2⟩
    · have heq : bisectLoop a x (fuel + 1) lo hi = lo := by
        simp only [bisectLoop]
        rw [if_neg hlt]
      rw [heq]
      have : lo = hi := by omega
      subst this
      exact ⟨le_refl _, le_refl _, hpre, hsuf⟩

/-- Characterization of `bisect_right` on a sorted list: it returns the
boundary position, so `a[j] ≤ x` exactly for positions `j` below it. -/
theorem bisect_right_spec (a : List Int) (x : Int)
    (hs : a.Pairwise (· ≤ ·)) :
    bisect_right a x ≤ a.length ∧
    (∀ j, j < bisect_right a x → a.getD j 0 ≤ x) ∧
    (∀ j, bisect_right a x ≤ j → j < a.length → ¬ a.getD j 0 ≤ x) := by
  have h := bisectLoop_spec a x hs (a.length + 1) 0 a.length (le_refl _)
    (Nat.zero_le _) (by omega) (by omega) (by intro j h1 h2; omega)
  exact ⟨h.2.1, h.2.2⟩

/-- Comparing by key implies comparing end times. -/
theorem keyLe_stop {a b : Task} (h : keyLe a b = true) : a.stop ≤ b.stop := by
  unfold keyLe at h
  simp only [decide_eq_true_eq] at h
  rcases h with h | ⟨h, _⟩
  · exact le_of_lt h
  · exact le_of_eq h

/-- The end-time column of a sorted task list is sorted. -/
theorem endsOf_sorted {ts : List Task}
    (hs : ts.Pairwise (fun x y => keyLe x y = true)) :
    (endsOf ts).Pairwise (· ≤ ·) :=
  hs.map Task.stop (fun _ _ h => keyLe_stop h)

/-- Reading the end-time column at a position. -/
theorem endsOf_getD {ts : List Task} {j : Nat} (h : j < ts.length) (d : Task) :
    (endsOf ts).getD j 0 = (ts.getD j d).stop := by
  have hlen : j < (endsOf ts).length := by
    unfold endsOf
    rw [List.length_map]
    exact h
  rw [List.getD_eq_getElem _ 0 hlen, List.getD_eq_getElem ts d h]
  unfold endsOf
  rw [List.getElem_map]

/-- The tasks of the sorted list, by 1-based index. -/
theorem length_sortTasks (l : List Task) : (sortTasks l).length = l.length :=
  (sortBy_perm keyLe l).length_eq

/-- C4: after sorting by `(end, start, name)`, `p[i]` is exactly the
largest 1-based index `j` with `tasks[j].end ≤ tasks[i].start`: when
`p[i] = 0` no index qualifies, and otherwise `p[i]` itself qualifies
while every larger index does not. -/
theorem C4_predecessor (l : List Task) (i : Nat) (hi1 : 1 ≤ i)
    (hin : i ≤ (sortTasks l).length) :
    (pFun (sortTasks l) i = 0 →
      ∀ j, 1 ≤ j → j ≤ (sortTasks l).length →
        ¬ (taskAt (sortTasks l) j).stop ≤ (taskAt (sortTasks l) i).start) ∧
    (1 ≤ pFun (sortTasks l) i →
      pFun (sortTasks l) i ≤ (sortTasks l).length ∧
      (taskAt (sortTasks l) (pFun (sortTasks l) i)).stop ≤
        (taskAt (sortTasks l) i).start ∧
      ∀ j, pFun (sortTasks l) i < j → j ≤ (sortTasks l).length →
        ¬ (taskAt (sortTasks l) j).stop ≤ (taskAt (sortTasks l) i).start) := by
  have hsorted := pairwise_sortBy keyLe_total keyLe_trans l
  have hends := endsOf_sorted hsorted
  have hlenE : (endsOf (sortTasks l)).length = (sortTasks l).length := by
    unfold endsOf
    rw [List.length_map]
  have hspec := bisect_right_spec (endsOf (sortTasks l))
    (taskAt (sortTasks l) i).start hends
  have hpeq : pFun (sortTasks l) i =
      bisect_right (endsOf (sortTasks l)) (taskAt (sortTasks l) i).start := rfl
  refine ⟨?_, ?_⟩
  · intro hp j hj1 hjn hle
    have hjpos : j - 1 < (sortTasks l).length := by omega
    have := hspec.2.2 (j - 1) (by omega) (by omega)
    rw [endsOf_getD hjpos ⟨"", 0, 0, 0, 0⟩] at this
    exact this hle
  · intro hp
    have hplen : pFun (sortTasks l) i ≤ (sortTasks l).length := by
      have := hspec.1
      omega
    refine ⟨hplen, ?_, ?_⟩
    · have hpos : pFun (sortTasks l) i - 1 < (sortTasks l).length := by omega
      have := hspec.2.1 (pFun (sortTasks l) i - 1) (by omega)
      rw [endsOf_getD hpos ⟨"", 0, 0, 0, 0⟩] at this
      exact this
    · intro j hj hjn hle
      have hjpos : j - 1 < (sortTasks l).length := by omega
      have := hspec.2.2 (j - 1) (by omega) (by omega)
      rw [endsOf_getD hjpos ⟨"", 0, 0, 0, 0⟩] at this
      exact this hle

/-- C4 (witness): on a concrete two-task sorted list, `p[2] = 1` and
task 1 indeed ends (at 1) no later than task 2 starts (at 2). -/
theorem C4_witness :
    (taskAt (sortTasks [⟨"x", 0, 1, 0, 0⟩, ⟨"y", 2, 3, 0, 0⟩])
        (pFun (sortTasks [⟨"x", 0, 1, 0, 0⟩, ⟨"y", 2, 3, 0, 0⟩]) 2)).stop ≤
      (taskAt (sortTasks [⟨"x", 0, 1, 0, 0⟩, ⟨"y", 2, 3, 0, 0⟩]) 2).start :=
  ((C4_predecessor [⟨"x", 0, 1, 0, 0⟩, ⟨"y", 2, 3, 0, 0⟩] 2 (by decide)
    (by decide)).2 (by decide)).2.1

/-! Theory of the DP loop. -/

/-- Characterization of one DP step: the take fee must evaluate, and the
new state is the take record or the skip record according to the
lexicographic (score, fee) comparison. -/
theorem dpStep_char {ts : List Task} {dists : List (Int × List (Int × Int))}
    {s0 : Int} {st : DpSt} {i : Nat} {st' : DpSt}
    (h : dpStep ts dists s0 st i = some st') :
    ∃ tf, takeFee ts dists s0 st i = some tf ∧
      ((st.score (pFun ts i) + (taskAt ts i).score > st.score (i - 1) ∨
          (st.score (pFun ts i) + (taskAt ts i).score = st.score (i - 1) ∧
            tf < st.fee (i - 1))) ∧
        st' = ⟨setAt st.score i (st.score (pFun ts i) + (taskAt ts i).score),
               setAt st.fee i tf, setAt st.last i (Int.ofNat i),
               setAt st.choice i 1⟩ ∨
       ¬ (st.score (pFun ts i) + (taskAt ts i).score > st.score (i - 1) ∨
          (st.score (pFun ts i) + (taskAt ts i).score = st.score (i - 1) ∧
            tf < st.fee (i - 1))) ∧
        st' = ⟨setAt st.score i (st.score (i - 1)), setAt st.fee i (st.fee (i - 1)),
               setAt st.last i (st.last (i - 1)), setAt st.choice i 0⟩) := by
  unfold dpStep at h
  cases htf : takeFee ts dists s0 st i with
  | none => rw [htf] at h; cases h
  | some tf =>
    rw [htf] at h
    simp only [Option.bind_eq_bind, Option.some_bind, Option.pure_def,
      Option.some_inj] at h
    refine ⟨tf, rfl, ?_⟩
    split at h
    · exact Or.inl ⟨by assumption, (Option.some_inj.mp h).symm⟩
    · exact Or.inr ⟨by assumption, (Option.some_inj.mp h).symm⟩

/-- A DP step only writes index `i`. -/
theorem dpStep_other {ts : List Task} {dists : List (Int × List (Int × Int))}
    {s0 : Int} {st : DpSt} {i : Nat} {st' : DpSt}
    (h : dpStep ts dists s0 st i = some st') {k : Nat} (hk : k ≠ i) :
    st'.score k = st.score k ∧ st'.fee k = st.fee k ∧
    st'.last k = st.last k ∧ st'.choice k = st.choice k := by
  rcases dpStep_char h with ⟨tf, _, ⟨_, rfl⟩ | ⟨_, rfl⟩⟩ <;>
    exact ⟨by simp [setAt, hk], by simp [setAt, hk], by simp [setAt, hk],
      by simp [setAt, hk]⟩

/-- The new state's score at `i` dominates the skip option. -/
theorem dpStep_ge_skip {ts : List Task} {dists : List (Int × List (Int × Int))}
    {s0 : Int} {st : DpSt} {i : Nat} {st' : DpSt}
    (h : dpStep ts dists s0 st i = some st') :
    st.score (i - 1) ≤ st'.score i := by
  rcases dpStep_char h with ⟨tf, _, ⟨hc, rfl⟩ | ⟨_, rfl⟩⟩
  · simp only [setAt, if_pos rfl]
    rcases hc with hc | ⟨hc, _⟩
    · exact le_of_lt hc
    · exact le_of_eq hc.symm
  · simp [setAt]

/-- The new state's score at `i` dominates the take option. -/
theorem dpStep_ge_take {ts : List Task} {dists : List (Int × List (Int × Int))}
    {s0 : Int} {st : DpSt} {i : Nat} {st' : DpSt}
    (h : dpStep ts dists s0 st i = some st') :
    st.score (pFun ts i) + (taskAt ts i).score ≤ st'.score i := by
  rcases dpStep_char h with ⟨tf, _, ⟨_, rfl⟩ | ⟨hc, rfl⟩⟩
  · simp [setAt]
  · simp only [setAt, if_pos rfl]
    rcases not_or.mp hc with ⟨h1, _⟩
    exact not_lt.mp h1

/-- When the DP takes `i`, the new score extends the state at `p[i]`,
and when it skips, the state at `i-1` is carried. -/
theorem dpStep_choice {ts : List Task} {dists : List (Int × List (Int × Int))}
    {s0 : Int} {st : DpSt} {i : Nat} {st' : DpSt}
    (h : dpStep ts dists s0 st i = some st') :
    (st'.choice i = 1 →
      st'.score i = st.score (pFun ts i) + (taskAt ts i).score) ∧
    (st'.choice i ≠ 1 → st'.score i = st.score (i - 1)) := by
  rcases dpStep_char h with ⟨tf, _, ⟨_, rfl⟩ | ⟨_, rfl⟩⟩
  · exact ⟨fun _ => by simp [setAt], fun hch => absurd (by simp [setAt]) hch⟩
  · refine ⟨fun hch => ?_, fun _ => by simp [setAt]⟩
    simp only [setAt, if_pos rfl] at hch
    cases hch

/-- Unfolding one DP iteration. -/
theorem dpRun_succ_some {ts : List Task} {dists : List (Int × List (Int × Int))}
    {s0 : Int} {i : Nat} {st' : DpSt}
    (h : dpRun ts dists s0 (i + 1) = some st') :
    ∃ st, dpRun ts dists s0 i = some st ∧ dpStep ts dists s0 st (i + 1) = some st' := by
  have : (dpRun ts dists s0 i).bind (fun st => dpStep ts dists s0 st (i + 1)) =
      some st' := h
  exact Option.bind_eq_some.mp this

/-- If the DP ran to `n`, it ran to every earlier index. -/
theorem dpRun_some_mono {ts : List Task} {dists : List (Int × List (Int × Int))}
    {s0 : Int} :
    ∀ n m, m ≤ n → ∀ st, dpRun ts dists s0 n = some st →
      ∃ st', dpRun ts dists s0 m = some st' := by
  intro n
  induction n with
  | zero =>
    intro m hm st h
    have : m = 0 := Nat.le_zero.mp hm
    subst this
    exact ⟨st, h⟩
  | succ n ih =>
    intro m hm st h
    rcases dpRun_succ_some h with ⟨stn, hn, _⟩
    rcases Nat.lt_or_ge m (n + 1) with hlt | hge
    · exact ih m (by omega) stn hn
    · have : m = n + 1 := by omega
      subst this
      exact ⟨st, h⟩

/-- Later DP states agree with earlier ones on already-written indices. -/
theorem dpRun_agree {ts : List Task} {dists : List (Int × List (Int × Int))}
    {s0 : Int} :
    ∀ n m, m ≤ n → ∀ stm stn, dpRun ts dists s0 m = some stm →
      dpRun ts dists s0 n = some stn → ∀ k, k ≤ m →
      stn.score k = stm.score k ∧ stn.fee k = stm.fee k ∧
      stn.last k = stm.last k ∧ stn.choice k = stm.choice k := by
  intro n
  induction n with
  | zero =>
    intro m hm stm stn hrm hrn k hk
    have : m = 0 := Nat.le_zero.mp hm
    subst this
    rw [hrm] at hrn
    cases hrn
    exact ⟨rfl, rfl, rfl, rfl⟩
  | succ n ih =>
    intro m hm stm stn hrm hrn k hk
    rcases Nat.lt_or_ge m (n + 1) with hlt | hge
    · rcases dpRun_succ_some hrn with ⟨stn', hn', hstep⟩
      have hk' : k ≠ n + 1 := by omega
      have hother := dpStep_other hstep hk'
      have hih := ih m (by omega) stm stn' hrm hn' k hk
      exact ⟨hother.1.trans hih.1, hother.2.1.trans hih.2.1,
        hother.2.2.1.trans hih.2.2.1, hother.2.2.2.trans hih.2.2.2⟩
    · have : m = n + 1 := by omega
      subst this
      rw [hrm] at hrn
      cases hrn
      exact ⟨rfl, rfl, rfl, rfl⟩

/-- The DP score at `i` dominates every non-overlapping sublist of the
first `i` sorted tasks: weighted-interval-scheduling optimality of the
score component, provided every task has `start < end`. -/
theorem dp_score_ub {ts : List Task} {dists : List (Int × List (Int × Int))}
    {s0 : Int}
    (hsorted : ts.Pairwise (fun x y => keyLe x y = true))
    (hlt : ∀ t ∈ ts, t.start < t.stop) :
    ∀ i, i ≤ ts.length → ∀ st, dpRun ts dists s0 i = some st →
      ∀ S, S.Sublist (ts.take i) → S.Pairwise nonOverlap →
        sumScores S ≤ st.score i := by
  intro i
  induction i using Nat.strong_induction_on with
  | _ i ih =>
    cases i with
    | zero =>
      intro _ st hrun S hsub _
      rw [List.take_zero] at hsub
      rw [List.sublist_nil.mp hsub]
      have hst : st = dpInit := (Option.some_inj.mp hrun).symm
      rw [hst]
      show sumScores [] ≤ dpInit.score 0
      simp [sumScores, dpInit]
    | succ i =>
      intro hin st hrun S hsub hpw
      rcases dpRun_succ_some hrun with ⟨stp, hrunp, hstep⟩
      have hilen : i < ts.length := by omega
      have htake : ts.take (i + 1) = ts.take i ++ [ts[i]] := by
        rw [List.take_succ, List.getElem?_eq_getElem hilen]
        rfl
      rw [htake] at hsub
      rcases List.sublist_append_iff.mp hsub with ⟨s1, s2, rfl, hs1, hs2⟩
      rcases List.sublist_singleton.mp hs2 with rfl | rfl
      · rw [List.append_nil]
        rw [List.append_nil] at hpw
        have h1 := ih i (by omega) (by omega) stp hrunp s1 hs1 hpw
        have h2 := dpStep_ge_skip hstep
        simp only [Nat.add_sub_cancel] at h2
        exact h1.trans h2
      · have hti_mem : ts[i] ∈ ts := List.getElem_mem _
        have hpw' := List.pairwise_append.mp hpw
        have hcross : ∀ x ∈ s1, nonOverlap x ts[i] := fun x hx =>
          hpw'.2.2 x hx ts[i] (List.mem_singleton.mpr rfl)
        have hkey : ∀ x ∈ ts.take i, keyLe x ts[i] = true := by
          have hsub2 : (ts.take i ++ [ts[i]]).Sublist ts := by
            rw [← htake]
            exact List.take_sublist _ _
          have hp2 := List.Pairwise.sublist hsub2 hsorted
          exact fun x hx => (List.pairwise_append.mp hp2).2.2 x hx ts[i]
            (List.mem_singleton.mpr rfl)
        have hstop_le : ∀ x ∈ s1, x.stop ≤ ts[i].start := by
          intro x hx
          have hxmem_take : x ∈ ts.take i := List.Sublist.mem hx hs1
          have hxts : x ∈ ts := List.Sublist.mem hxmem_take (List.take_sublist i ts)
          rcases hcross x hx with h | h
          · exact h
          · have h1 : x.start < x.stop := hlt x hxts
            have h2 : x.stop ≤ ts[i].stop := keyLe_stop (hkey x hxmem_take)
            omega
        have htaskAt : taskAt ts (i + 1) = ts[i] := by
          unfold taskAt
          simp only [Nat.add_sub_cancel]
          exact List.getD_eq_getElem ts _ hilen
        have hends := endsOf_sorted hsorted
        have hspec := bisect_right_spec (endsOf ts) (taskAt ts (i + 1)).start hends
        have hpeq : pFun ts (i + 1) =
            bisect_right (endsOf ts) (taskAt ts (i + 1)).start := rfl
        have hlenE : (endsOf ts).length = ts.length := by
          unfold endsOf
          rw [List.length_map]
        have hple : pFun ts (i + 1) ≤ i := by
          by_contra hgt
          push_neg at hgt
          have hstep1 := hspec.2.1 i (by omega)
          rw [endsOf_getD hilen ⟨"", 0, 0, 0, 0⟩] at hstep1
          rw [htaskAt] at hstep1
          have h1 : ts[i].start < ts[i].stop := hlt ts[i] hti_mem
          rw [List.getD_eq_getElem ts _ hilen] at hstep1
          omega
        have hs1p : s1.Sublist (ts.take (pFun ts (i + 1))) := by
          have e1 : List.take (pFun ts (i + 1)) (List.take i ts) =
              List.take (pFun ts (i + 1)) ts := by
            rw [List.take_take]
            congr 1
            exact Nat.min_eq_left hple
          have hdecomp : ts.take i =
              ts.take (pFun ts (i + 1)) ++ (ts.take i).drop (pFun ts (i + 1)) := by
            rw [← e1, List.take_append_drop]
          rw [hdecomp] at hs1
          rcases List.sublist_append_iff.mp hs1 with ⟨u, v, heqs, hu, hv⟩
          cases v with
          | nil =>
            rw [heqs, List.append_nil]
            exact hu
          | cons y v' =>
            exfalso
            have hymem : y ∈ (ts.take i).drop (pFun ts (i + 1)) :=
              List.Sublist.mem (List.mem_cons_self y v') hv
            obtain ⟨q, hq, hyq⟩ := List.getElem_of_mem hymem
            have hqlen : pFun ts (i + 1) + q < i := by
              have := hq
              rw [List.length_drop, List.length_take] at this
              omega
            have hplq : pFun ts (i + 1) + q < ts.length := by omega
            have hyq2 : y = ts[pFun ts (i + 1) + q] := by
              rw [← hyq]
              rw [List.getElem_drop (ts.take i)]
              exact List.getElem_take ts
            have hnot := hspec.2.2 (pFun ts (i + 1) + q) (by omega) (by omega)
            rw [endsOf_getD hplq ⟨"", 0, 0, 0, 0⟩] at hnot
            rw [List.getD_eq_getElem ts _ hplq] at hnot
            have hys : y ∈ s1 := by
              rw [heqs]
              exact List.mem_append.mpr (Or.inr (List.mem_cons_self y v'))
            have hle := hstop_le y hys
            rw [htaskAt] at hnot
            rw [hyq2] at hle
            exact hnot hle
        obtain ⟨stpp, hrunpp⟩ := dpRun_some_mono i (pFun ts (i + 1)) hple stp hrunp
        have hsum1 := ih (pFun ts (i + 1)) (by omega) (by omega) stpp hrunpp s1
          hs1p hpw'.1
        have hagree := dpRun_agree i (pFun ts (i + 1)) hple stpp stp hrunpp hrunp
          (pFun ts (i + 1)) (le_refl _)
        have htakege := dpStep_ge_take hstep
        have hsumS : sumScores (s1 ++ [ts[i]]) = sumScores s1 + ts[i].score := by
          simp [sumScores]
        rw [hsumS]
        rw [htaskAt] at htakege
        have heq1 : stp.score (pFun ts (i + 1)) = stpp.score (pFun ts (i + 1)) :=
          hagree.1
        omega

/-- Inversion of `solveCore`: a successful run yields a graph, a
distance table, a final DP state, and reconstructed indices, and the
result is assembled from them. -/
theorem solveCore_inv {fuel : Nat} {s0 : Int} {tasks0 : List Task}
    {subway : List JEdge} {r : SResult}
    (h : solveCore fuel s0 tasks0 subway = some r) :
    ∃ g dists st idxs,
      build_graph subway = some g ∧
      all_pairs_needed_dists fuel ((s0 :: tasks0.map (·.station)).dedup) g =
        some dists ∧
      dpRun (sortTasks tasks0) dists s0 (sortTasks tasks0).length = some st ∧
      reconLoop st.choice (pFun (sortTasks tasks0)) fuel
        (sortTasks tasks0).length [] = some idxs ∧
      r = ⟨st.score (sortTasks tasks0).length, st.fee (sortTasks tasks0).length,
           (sortBy keyLeOut (idxs.map (taskAt (sortTasks tasks0)))).map
             (·.name)⟩ := by
  unfold solveCore at h
  simp only [Option.bind_eq_bind, Option.bind_eq_some, Option.pure_def,
    Option.some_inj] at h
  rcases h with ⟨g, hg, dists, hdists, st, hst, idxs, hidxs, hr⟩
  exact ⟨g, dists, st, idxs, hg, hdists, hst, hidxs, hr.symm⟩

/-- Inversion of the full solver: the starting station parses; then
either the raw task list is empty and the result is the zero result, or
normalization succeeds and the core solver produced the result. -/
theorem solve_inv {fuel : Nat} {p : Payload} {r : SResult}
    (h : solve_princess_diaries fuel p = some r) :
    ∃ jss s0, p.starting_station = some jss ∧ toIntV jss = some s0 ∧
      ((p.tasks.getD [] = [] ∧ r = ⟨0, 0, []⟩) ∨
       ∃ tasks0, mapMO normTask (p.tasks.getD []) = some tasks0 ∧
         solveCore fuel s0 tasks0 (p.subway.getD []) = some r) := by
  unfold solve_princess_diaries at h
  simp only [Option.bind_eq_bind, Option.bind_eq_some] at h
  rcases h with ⟨jss, hjss, s0, hs0, hrest⟩
  refine ⟨jss, s0, hjss, hs0, ?_⟩
  by_cases hemp : p.tasks.getD [] = []
  · rw [if_pos hemp] at hrest
    exact Or.inl ⟨hemp, (Option.some_inj.mp hrest).symm⟩
  · rw [if_neg hemp] at hrest
    simp only [Option.bind_eq_bind, Option.bind_eq_some] at hrest
    rcases hrest with ⟨tasks0, htasks0, hcore⟩
    exact Or.inr ⟨tasks0, htasks0, hcore⟩

/-- C1 (amended): the returned `max_score` is optimal: provided every
task satisfies `start < end`, no subset (subpermutation) of the
normalized tasks that is pairwise non-overlapping has a total score
exceeding the reported `max_score`. -/
theorem C1_max_score_optimal (fuel : Nat) (p : Payload) (r : SResult)
    (h : solve_princess_diaries fuel p = some r)
    (tasks0 : List Task)
    (hparse : mapMO normTask (p.tasks.getD []) = some tasks0)
    (hlt : ∀ t ∈ tasks0, t.start < t.stop)
    (S : List Task) (hsub : S.Subperm tasks0) (hpw : S.Pairwise nonOverlap) :
    sumScores S ≤ r.max_score := by
  rcases solve_inv h with ⟨jss, s0, hjss, hs0, hcase⟩
  rcases hcase with ⟨hemp, hr⟩ | ⟨tasks0x, hparse2, hcore⟩
  · rw [hemp] at hparse
    have h0 : tasks0 = [] := by
      have : (some [] : Option (List Task)) = some tasks0 := hparse
      exact (Option.some_inj.mp this).symm
    subst h0
    have hS : S = [] := List.subperm_nil.mp hsub
    subst hS
    rw [hr]
    show sumScores [] ≤ (0 : Int)
    simp [sumScores]
  · rw [hparse] at hparse2
    have h0 : tasks0 = tasks0x := Option.some_inj.mp hparse2
    subst h0
    rcases solveCore_inv hcore with ⟨g, dists, st, idxs, _, _, hrun, _, hr⟩
    have hperm : (sortTasks tasks0).Perm tasks0 := sortBy_perm keyLe tasks0
    have hsorted := pairwise_sortBy keyLe_total keyLe_trans tasks0
    have hlt2 : ∀ t ∈ sortTasks tasks0, t.start < t.stop := fun t ht =>
      hlt t (hperm.subset ht)
    have hsub2 : S.Subperm (sortTasks tasks0) :=
      hsub.trans hperm.symm.subperm
    rcases hsub2 with ⟨T, hTperm, hTsub⟩
    have hTpw : T.Pairwise nonOverlap := by
      refine hpw.perm hTperm.symm ?_
      intro x y hxy
      rcases hxy with hh | hh
      · exact Or.inr hh
      · exact Or.inl hh
    have hTsub2 : T.Sublist ((sortTasks tasks0).take (sortTasks tasks0).length) := by
      rw [List.take_length]
      exact hTsub
    have hub := dp_score_ub hsorted hlt2 (sortTasks tasks0).length (le_refl _)
      st hrun T hTsub2 hTpw
    have hsumTS : sumScores T = sumScores S := by
      unfold sumScores
      exact (hTperm.map (·.score)).sum_eq
    rw [hr]
    show sumScores S ≤ st.score (sortTasks tasks0).length
    rw [← hsumTS]
    exact hub

/-- Under `start < end`, every task's latest compatible predecessor
index is strictly smaller than the task's own index. -/
theorem pFun_lt {ts : List Task}
    (hsorted : ts.Pairwise (fun x y => keyLe x y = true))
    (hlt : ∀ t ∈ ts, t.start < t.stop) {j : Nat}
    (h1 : 1 ≤ j) (h2 : j ≤ ts.length) : pFun ts j < j := by
  by_contra hge
  push_neg at hge
  have hends := endsOf_sorted hsorted
  have hspec := bisect_right_spec (endsOf ts) (taskAt ts j).start hends
  have hpeq : pFun ts j = bisect_right (endsOf ts) (taskAt ts j).start := rfl
  have hj1 : j - 1 < ts.length := by omega
  have hpre := hspec.2.1 (j - 1) (by omega)
  rw [endsOf_getD hj1 ⟨"", 0, 0, 0, 0⟩] at hpre
  have hpre2 : (taskAt ts j).stop ≤ (taskAt ts j).start := hpre
  have hmem : taskAt ts j ∈ ts := by
    unfold taskAt
    rw [List.getD_eq_getElem ts _ hj1]
    exact List.getElem_mem hj1
  have hlt2 := hlt _ hmem
  omega

/-- The final DP state's per-index transition facts, read off the run:
score 0 is 0; a taken index extends the state at its predecessor; a
skipped index carries the state at the previous index. -/
theorem dpRun_score_facts {ts : List Task} {dists : List (Int × List (Int × Int))}
    {s0 : Int} {n : Nat} {st : DpSt}
    (hrun : dpRun ts dists s0 n = some st)
    (hp : ∀ j, 1 ≤ j → j ≤ n → pFun ts j < j) :
    st.score 0 = 0 ∧
    ∀ k, 1 ≤ k → k ≤ n →
      (st.choice k = 1 →
        st.score k = st.score (pFun ts k) + (taskAt ts k).score) ∧
      (st.choice k ≠ 1 → st.score k = st.score (k - 1)) := by
  constructor
  · have hagree := dpRun_agree n 0 (Nat.zero_le n) dpInit st rfl hrun 0 (le_refl 0)
    rw [hagree.1]
    rfl
  · intro k hk1 hkn
    obtain ⟨k', rfl⟩ : ∃ k', k = k' + 1 := ⟨k - 1, by omega⟩
    obtain ⟨stk, hrunk⟩ := dpRun_some_mono n (k' + 1) hkn st hrun
    rcases dpRun_succ_some hrunk with ⟨stkp, hrunkp, hstep⟩
    have hagree := dpRun_agree n (k' + 1) hkn stk st hrunk hrun
    have hsc : st.score (k' + 1) = stk.score (k' + 1) := (hagree _ (le_refl _)).1
    have hch : st.choice (k' + 1) = stk.choice (k' + 1) := (hagree _ (le_refl _)).2.2.2
    have hpk : pFun ts (k' + 1) < k' + 1 := hp _ hk1 hkn
    have hagreep := dpRun_agree n k' (by omega) stkp st hrunkp hrun
    have hscp : st.score (pFun ts (k' + 1)) = stkp.score (pFun ts (k' + 1)) :=
      (hagreep _ (by omega)).1
    have hscm : st.score k' = stkp.score k' := (hagreep _ (le_refl _)).1
    have hchoice := dpStep_choice hstep
    constructor
    · intro h1
      rw [hch] at h1
      rw [hsc, hchoice.1 h1, hscp]
    · intro h1
      rw [hch] at h1
      have := hchoice.2 h1
      simp only [Nat.add_sub_cancel] at this
      rw [hsc, this, Nat.add_sub_cancel, hscm]

/-- Structure of the reconstruction walk: with predecessors strictly
decreasing, the produced index list has entries in `1..n` and each
entry is at most the predecessor bound of the next. -/
theorem reconLoop_chain (choiceF pf : Nat → Nat) (n : Nat)
    (hp : ∀ j, 1 ≤ j → j ≤ n → pf j < j) :
    ∀ fuel i acc l, i ≤ n →
      (∀ a ∈ acc, 1 ≤ a ∧ a ≤ n) →
      List.Chain' (fun a b => a ≤ pf b) acc →
      (∀ h, acc.head? = some h → i ≤ pf h) →
      reconLoop choiceF pf fuel i acc = some l →
      (∀ a ∈ l, 1 ≤ a ∧ a ≤ n) ∧ List.Chain' (fun a b => a ≤ pf b) l := by
  intro fuel
  induction fuel with
  | zero =>
    intro i acc l hi hb hc hh hrec
    simp only [reconLoop] at hrec
    by_cases h0 : i = 0
    · rw [if_pos h0] at hrec
      rw [← Option.some_inj.mp hrec]
      exact ⟨hb, hc⟩
    · rw [if_neg h0] at hrec
      cases hrec
  | succ fuel ih =>
    intro i acc l hi hb hc hh hrec
    simp only [reconLoop] at hrec
    by_cases h0 : i = 0
    · rw [if_pos h0] at hrec
      rw [← Option.some_inj.mp hrec]
      exact ⟨hb, hc⟩
    · rw [if_neg h0] at hrec
      by_cases hch : choiceF i = 1
      · rw [if_pos hch] at hrec
        have hi1 : 1 ≤ i := by omega
        have hpi : pf i < i := hp i hi1 hi
        refine ih (pf i) (i :: acc) l (by omega) ?_ ?_ ?_ hrec
        · intro a ha
          rcases List.mem_cons.mp ha with rfl | ha'
          · exact ⟨hi1, hi⟩
          · exact hb a ha'
        · rw [List.chain'_cons']
          exact ⟨fun y hy => hh y hy, hc⟩
        · intro h hhd
          simp only [List.head?_cons, Option.some_inj] at hhd
          rw [← hhd]
      · rw [if_neg hch] at hrec
        refine ih (i - 1) acc l (by omega) hb hc ?_ hrec
        intro h hhd
        have := hh h hhd
        omega

/-- The reconstruction walk telescopes the DP scores: the scores of the
recorded tasks sum to the DP score at the walk's starting index. -/
theorem reconLoop_sum {ts : List Task} {dists : List (Int × List (Int × Int))}
    {s0 : Int} {n : Nat} {st : DpSt}
    (hrun : dpRun ts dists s0 n = some st)
    (hp : ∀ j, 1 ≤ j → j ≤ n → pFun ts j < j) :
    ∀ fuel i acc l, i ≤ n →
      reconLoop st.choice (pFun ts) fuel i acc = some l →
      sumScores (l.map (taskAt ts)) =
        st.score i + sumScores (acc.map (taskAt ts)) := by
  have hfacts := dpRun_score_facts hrun hp
  intro fuel
  induction fuel with
  | zero =>
    intro i acc l hi hrec
    simp only [reconLoop] at hrec
    by_cases h0 : i = 0
    · rw [if_pos h0] at hrec
      rw [← Option.some_inj.mp hrec, h0, hfacts.1]
      ring
    · rw [if_neg h0] at hrec
      cases hrec
  | succ fuel ih =>
    intro i acc l hi hrec
    simp only [reconLoop] at hrec
    by_cases h0 : i = 0
    · rw [if_pos h0] at hrec
      rw [← Option.some_inj.mp hrec, h0, hfacts.1]
      ring
    · rw [if_neg h0] at hrec
      have hi1 : 1 ≤ i := by omega
      by_cases hch : st.choice i = 1
      · rw [if_pos hch] at hrec
        have hpi : pFun ts i < i := hp i hi1 hi
        have hval := ih (pFun ts i) (i :: acc) l (by omega) hrec
        have htake := ((hfacts.2 i hi1 hi).1) hch
        rw [hval]
        simp only [List.map_cons, sumScores, List.sum_cons]
        rw [htake]
        ring
      · rw [if_neg hch] at hrec
        have hval := ih (i - 1) acc l (by omega) hrec
        rw [hval]
        have hskip := ((hfacts.2 i hi1 hi).2) hch
        rw [hskip]

/-- A reconstruction chain is strictly increasing, hence duplicate-free. -/
theorem reconLoop_nodup {pf : Nat → Nat} {n : Nat} {l : List Nat}
    (hp : ∀ j, 1 ≤ j → j ≤ n → pf j < j)
    (hb : ∀ a ∈ l, 1 ≤ a ∧ a ≤ n)
    (hc : List.Chain' (fun a b => a ≤ pf b) l) : l.Nodup := by
  have hlt : List.Chain' (· < ·) l := by
    induction l with
    | nil => exact List.chain'_nil
    | cons a l ihl =>
      rw [List.chain'_cons'] at hc ⊢
      refine ⟨?_, ihl (fun x hx => hb x (List.mem_cons_of_mem a hx)) hc.2⟩
      intro y hy
      have hyl : y ∈ l := List.mem_of_mem_head? hy
      have hybd := hb y (List.mem_cons_of_mem a hyl)
      have := hc.1 y hy
      have := hp y hybd.1 hybd.2
      omega
  have hpw : List.Pairwise (· < ·) l := List.chain'_iff_pairwise.mp hlt
  exact hpw.imp Nat.ne_of_lt

/-- Upgrading a chain when the relation strengthening needs membership. -/
theorem chain_imp_mem {α : Type} {R S : α → α → Prop} :
    ∀ l : List α, List.Chain' R l → (∀ a ∈ l, ∀ b ∈ l, R a b → S a b) →
      List.Chain' S l := by
  intro l
  induction l with
  | nil => intro _ _; exact List.chain'_nil
  | cons a l ihl =>
    intro hc hmem
    rw [List.chain'_cons'] at hc ⊢
    constructor
    · intro y hy
      have hyl : y ∈ l := List.mem_of_mem_head? hy
      exact hmem a (List.mem_cons_self a l) y (List.mem_cons_of_mem a hyl) (hc.1 y hy)
    · exact ihl hc.2 (fun x hx y hy h =>
        hmem x (List.mem_cons_of_mem a hx) y (List.mem_cons_of_mem a hy) h)

/-- Indexing with `taskAt` inside bounds lands in the list. -/
theorem taskAt_mem {ts : List Task} {a : Nat} (h1 : 1 ≤ a) (h2 : a ≤ ts.length) :
    taskAt ts a ∈ ts := by
  unfold taskAt
  have hlt : a - 1 < ts.length := by omega
  rw [List.getD_eq_getElem ts _ hlt]
  exact List.getElem_mem hlt

/-- An index below another's predecessor bound maps to a compatible
task: its end time is at most the other task's start time. -/
theorem chain_tasks_compat {ts : List Task}
    (hsorted : ts.Pairwise (fun x y => keyLe x y = true))
    {a b : Nat} (hab : a ≤ pFun ts b) (ha1 : 1 ≤ a) (han : a ≤ ts.length) :
    (taskAt ts a).stop ≤ (taskAt ts b).start := by
  have hends := endsOf_sorted hsorted
  have hspec := bisect_right_spec (endsOf ts) (taskAt ts b).start hends
  have hpeq : pFun ts b = bisect_right (endsOf ts) (taskAt ts b).start := rfl
  have ha1l : a - 1 < ts.length := by omega
  have hpre := hspec.2.1 (a - 1) (by omega)
  rw [endsOf_getD ha1l ⟨"", 0, 0, 0, 0⟩] at hpre
  exact hpre

/-- A compatibility chain of tasks with positive durations is pairwise
compatible. -/
theorem chain_compat_pairwise :
    ∀ l : List Task, List.Chain' (fun x y => x.stop ≤ y.start) l →
      (∀ t ∈ l, t.start < t.stop) →
      l.Pairwise (fun x y => x.stop ≤ y.start) := by
  intro l
  induction l with
  | nil =>
    intro _ _
    exact List.Pairwise.nil
  | cons a l ihl =>
    intro hc hl
    rw [List.chain'_cons'] at hc
    refine List.pairwise_cons.mpr
      ⟨?_, ihl hc.2 (fun t ht => hl t (List.mem_cons_of_mem a ht))⟩
    intro y hy
    cases l with
    | nil => cases hy
    | cons hh tt =>
      have hah : a.stop ≤ hh.start := hc.1 hh rfl
      rcases List.mem_cons.mp hy with rfl | hyt
      · exact hah
      · have hpwl := ihl hc.2 (fun t ht => hl t (List.mem_cons_of_mem a ht))
        have hh_y := (List.pairwise_cons.mp hpwl).1 y hyt
        have hhlt : hh.start < hh.stop :=
          hl hh (List.mem_cons_of_mem a (List.mem_cons_self hh tt))
        omega

/-- C2 (amended): provided every task satisfies `start < end`, the
tasks selected by `solve_princess_diaries` (those whose names make up
the returned schedule, in schedule order) are pairwise non-overlapping:
touching at a boundary is allowed. -/
theorem C2_schedule_nonoverlap (fuel : Nat) (p : Payload) (r : SResult)
    (h : solve_princess_diaries fuel p = some r)
    (tasks0 : List Task)
    (hparse : mapMO normTask (p.tasks.getD []) = some tasks0)
    (hlt : ∀ t ∈ tasks0, t.start < t.stop) :
    ∃ sel : List Task, sel.map (·.name) = r.schedule ∧
      (∀ t ∈ sel, t ∈ tasks0) ∧ sel.Pairwise nonOverlap := by
  rcases solve_inv h with ⟨jss, s0, hjss, hs0, hcase⟩
  rcases hcase with ⟨hemp, hr⟩ | ⟨tasks0x, hparse2, hcore⟩
  · refine ⟨[], ?_, ?_, List.Pairwise.nil⟩
    · rw [hr]
      rfl
    · intro t ht
      cases ht
  · rw [hparse] at hparse2
    have h0 : tasks0 = tasks0x := Option.some_inj.mp hparse2
    subst h0
    rcases solveCore_inv hcore with ⟨g, dists, st, idxs, _, _, hrun, hrec, hr⟩
    have hperm : (sortTasks tasks0).Perm tasks0 := sortBy_perm keyLe tasks0
    have hsorted := pairwise_sortBy keyLe_total keyLe_trans tasks0
    have hlt2 : ∀ t ∈ sortTasks tasks0, t.start < t.stop := fun t ht =>
      hlt t (hperm.subset ht)
    have hp : ∀ j, 1 ≤ j → j ≤ (sortTasks tasks0).length →
        pFun (sortTasks tasks0) j < j := fun j h1 h2 => pFun_lt hsorted hlt2 h1 h2
    have hchain := reconLoop_chain st.choice (pFun (sortTasks tasks0))
      (sortTasks tasks0).length hp fuel (sortTasks tasks0).length [] idxs
      (le_refl _) (by intro a ha; cases ha) List.chain'_nil
      (by intro hh hhh; cases hhh) hrec
    have hmapped : List.Chain' (fun x y => x.stop ≤ y.start)
        (idxs.map (taskAt (sortTasks tasks0))) := by
      rw [List.chain'_map]
      refine chain_imp_mem idxs hchain.2 ?_
      intro a ha b hb hab
      have hba := hchain.1 a ha
      exact chain_tasks_compat hsorted hab hba.1 hba.2
    have hmem : ∀ t ∈ idxs.map (taskAt (sortTasks tasks0)), t ∈ tasks0 := by
      intro t ht
      rcases List.mem_map.mp ht with ⟨a, ha, rfl⟩
      have hba := hchain.1 a ha
      exact hperm.subset (taskAt_mem hba.1 hba.2)
    have hpwc := chain_compat_pairwise _ hmapped
      (fun t ht => hlt t (hmem t ht))
    have hpwN : (idxs.map (taskAt (sortTasks tasks0))).Pairwise nonOverlap :=
      hpwc.imp (fun hxy => Or.inl hxy)
    refine ⟨sortBy keyLeOut (idxs.map (taskAt (sortTasks tasks0))), ?_, ?_, ?_⟩
    · rw [hr]
    · intro t ht
      exact hmem t ((sortBy_perm keyLeOut _).subset ht)
    · refine hpwN.perm (sortBy_perm keyLeOut _).symm ?_
      intro x y hxy
      rcases hxy with hh | hh
      · exact Or.inr hh
      · exact Or.inl hh

/-- C2 (witness): the amended statement on the concrete one-task
payload `wPay`. -/
theorem C2_witness :
    ∃ sel : List Task,
      sel.map (·.name) = (⟨3, 0, ["w"]⟩ : SResult).schedule ∧
      (∀ t ∈ sel, t ∈ [wTask1]) ∧ sel.Pairwise nonOverlap :=
  C2_schedule_nonoverlap 10 wPay ⟨3, 0, ["w"]⟩ (by decide) [wTask1] (by decide)
    (by decide)

/-- C1 (witness): the amended maximum-score statement on the concrete
one-task payload `wPay`: the subset consisting of the task itself
scores no more than the reported `max_score` 3. -/
theorem C1_witness : sumScores [wTask1] ≤ (⟨3, 0, ["w"]⟩ : SResult).max_score :=
  C1_max_score_optimal 10 wPay ⟨3, 0, ["w"]⟩ (by decide) [wTask1] (by decide)
    (by decide) [wTask1] (by decide) (by decide)

/-- C10 (amended): provided every task satisfies `start < end`, the
reconstruction selects a duplicate-free list of sorted-task indices
whose names form the returned schedule and whose scores sum exactly to
the returned `max_score`. -/
theorem C10_score_is_sum (fuel : Nat) (p : Payload) (r : SResult)
    (h : solve_princess_diaries fuel p = some r)
    (tasks0 : List Task)
    (hparse : mapMO normTask (p.tasks.getD []) = some tasks0)
    (hlt : ∀ t ∈ tasks0, t.start < t.stop) :
    ∃ idxs : List Nat, idxs.Nodup ∧
      (sortBy keyLeOut (idxs.map (taskAt (sortTasks tasks0)))).map (·.name) =
        r.schedule ∧
      sumScores (idxs.map (taskAt (sortTasks tasks0))) = r.max_score := by
  rcases solve_inv h with ⟨jss, s0, hjss, hs0, hcase⟩
  rcases hcase with ⟨hemp, hr⟩ | ⟨tasks0x, hparse2, hcore⟩
  · refine ⟨[], List.nodup_nil, ?_, ?_⟩
    · rw [hr]
      rfl
    · rw [hr]
      rfl
  · rw [hparse] at hparse2
    have h0 : tasks0 = tasks0x := Option.some_inj.mp hparse2
    subst h0
    rcases solveCore_inv hcore with ⟨g, dists, st, idxs, _, _, hrun, hrec, hr⟩
    have hperm : (sortTasks tasks0).Perm tasks0 := sortBy_perm keyLe tasks0
    have hsorted := pairwise_sortBy keyLe_total keyLe_trans tasks0
    have hlt2 : ∀ t ∈ sortTasks tasks0, t.start < t.stop := fun t ht =>
      hlt t (hperm.subset ht)
    have hp : ∀ j, 1 ≤ j → j ≤ (sortTasks tasks0).length →
        pFun (sortTasks tasks0) j < j := fun j h1 h2 => pFun_lt hsorted hlt2 h1 h2
    have hchain := reconLoop_chain st.choice (pFun (sortTasks tasks0))
      (sortTasks tasks0).length hp fuel (sortTasks tasks0).length [] idxs
      (le_refl _) (by intro a ha; cases ha) List.chain'_nil
      (by intro hh hhh; cases hhh) hrec
    have hsum := reconLoop_sum hrun hp fuel (sortTasks tasks0).length [] idxs
      (le_refl _) hrec
    refine ⟨idxs, reconLoop_nodup hp hchain.1 hchain.2, ?_, ?_⟩
    · rw [hr]
    · rw [hr]
      show sumScores (idxs.map (taskAt (sortTasks tasks0))) =
        st.score (sortTasks tasks0).length
      rw [hsum]
      simp [sumScores]

/-- C10 (witness): the amended statement on the concrete one-task
payload `wPay`. -/
theorem C10_witness :
    ∃ idxs : List Nat, idxs.Nodup ∧
      (sortBy keyLeOut (idxs.map (taskAt (sortTasks [wTask1])))).map (·.name) =
        (⟨3, 0, ["w"]⟩ : SResult).schedule ∧
      sumScores (idxs.map (taskAt (sortTasks [wTask1]))) =
        (⟨3, 0, ["w"]⟩ : SResult).max_score :=
  C10_score_is_sum 10 wPay ⟨3, 0, ["w"]⟩ (by decide) [wTask1] (by decide)
    (by decide)

/-! Theory of the Dijkstra loop. -/

/-- An empty pop means an empty queue. -/
theorem popMin_none : ∀ {l : List (Int × Int)}, popMin l = none → l = [] := by
  intro l h
  cases l with
  | nil => rfl
  | cons x xs =>
    exfalso
    cases hxs : popMin xs with
    | none =>
      simp only [popMin, hxs] at h
      cases h
    | some p =>
      rcases p with ⟨m', r'⟩
      simp only [popMin, hxs] at h
      by_cases hc : x.1 < m'.1 ∨ (x.1 = m'.1 ∧ x.2 ≤ m'.2)
      · rw [if_pos hc] at h
        cases h
      · rw [if_neg hc] at h
        cases h

/-- Popping returns a permutation split of the queue. -/
theorem popMin_perm :
    ∀ {l : List (Int × Int)} {m : Int × Int} {r : List (Int × Int)},
      popMin l = some (m, r) → l.Perm (m :: r) := by
  intro l
  induction l with
  | nil =>
    intro m r h
    cases h
  | cons x xs ih =>
    intro m r h
    cases hxs : popMin xs with
    | none =>
      have hx : xs = [] := popMin_none hxs
      subst hx
      simp only [popMin, hxs, Option.some_inj] at h
      cases h
      exact List.Perm.refl _
    | some p =>
      rcases p with ⟨m', r'⟩
      simp only [popMin, hxs] at h
      by_cases hc : x.1 < m'.1 ∨ (x.1 = m'.1 ∧ x.2 ≤ m'.2)
      · rw [if_pos hc] at h
        have h' := Option.some_inj.mp h
        cases h'
        exact List.Perm.refl _
      · rw [if_neg hc] at h
        have h' := Option.some_inj.mp h
        cases h'
        have hperm := ih hxs
        exact (hperm.cons x).trans (List.Perm.swap _ x r')

/-- Updated key reads back the new value. -/
theorem lookupA_updateA_self (m : List (Int × Int)) (k v : Int) :
    lookupA (updateA m k v) k = some v := by
  induction m with
  | nil => simp [updateA, lookupA]
  | cons p r ih =>
    rcases p with ⟨k', v'⟩
    by_cases h : k' = k
    · simp [updateA, h, lookupA]
    · simp only [updateA, if_neg h, lookupA]
      exact ih

/-- Other keys are unchanged by an update. -/
theorem lookupA_updateA_ne (m : List (Int × Int)) {k k' : Int} (v : Int)
    (h : k' ≠ k) : lookupA (updateA m k v) k' = lookupA m k' := by
  induction m with
  | nil =>
    simp only [updateA, lookupA]
    rw [if_neg (fun he => h he.symm)]
  | cons p r ih =>
    rcases p with ⟨k0, v0⟩
    by_cases h0 : k0 = k
    · subst h0
      simp only [updateA, if_pos rfl, lookupA]
      rw [if_neg (fun he => h he.symm), if_neg (fun he => h he.symm)]
    · simp only [updateA, if_neg h0, lookupA]
      by_cases h1 : k0 = k'
      · rw [if_pos h1, if_pos h1]
      · rw [if_neg h1, if_neg h1]
        exact ih

/-- Concatenation of walks. -/
theorem Reaches.trans {g : Int → List (Int × Int)} {a b c : Int}
    {c1 c2 : Int} (h1 : Reaches g a b c1) (h2 : Reaches g b c c2) :
    Reaches g a c (c1 + c2) := by
  induction h2 with
  | refl => rw [add_zero]; exact h1
  | step h e ih =>
    rw [← add_assoc]
    exact Reaches.step ih e

/-- A single arc is a walk. -/
theorem Reaches.single {g : Int → List (Int × Int)} {a b w : Int}
    (h : (b, w) ∈ g a) : Reaches g a b w := by
  have := Reaches.step (Reaches.refl (g := g) a) h
  rw [zero_add] at this
  exact this

/-- Walks reverse in a symmetric adjacency map. -/
theorem Reaches.symm {g : Int → List (Int × Int)}
    (hsym : ∀ u v w, (v, w) ∈ g u → (u, w) ∈ g v) {a b c : Int}
    (h : Reaches g a b c) : Reaches g b a c := by
  induction h with
  | refl => exact Reaches.refl _
  | step h e ih =>
    rw [add_comm]
    exact Reaches.trans (Reaches.single (hsym _ _ _ e)) ih

/-- Effect of relaxing one arc `(v, w)` out of the popped node `u`
(settled at distance `d`): entries only decrease, the queue only grows,
every new value is the relaxed value, every change is mirrored by a
fresh queue entry, the arc's target ends up within the relaxed bound,
and `u`'s own entry is unchanged (this needs `0 ≤ w`). -/
theorem relaxOne_facts {d : Int} {pq dist : List (Int × Int)}
    {vw : Int × Int} {u : Int} (s : List (Int × Int) × List (Int × Int))
    (hs : s = relaxOne d (pq, dist) vw)
    (hu : lookupA dist u = some d) (hw : 0 ≤ vw.2) :
    (∀ x c, lookupA dist x = some c → ∃ c', lookupA s.2 x = some c' ∧ c' ≤ c) ∧
    (∀ e ∈ pq, e ∈ s.1) ∧
    (∀ x c', lookupA s.2 x = some c' →
      lookupA dist x = some c' ∨ (x = vw.1 ∧ c' = d + vw.2)) ∧
    (∀ x dx', lookupA s.2 x = some dx' →
      lookupA dist x = some dx' ∨ (dx', x) ∈ s.1) ∧
    (∃ dv, lookupA s.2 vw.1 = some dv ∧ dv ≤ d + vw.2) ∧
    lookupA s.2 u = some d := by
  rcases vw with ⟨v, w⟩
  simp only at hw
  cases hv : lookupA dist v with
  | none =>
    have hs' : s = ((d + w, v) :: pq, updateA dist v (d + w)) := by
      rw [hs]
      simp only [relaxOne, hv]
    subst hs'
    have huv : u ≠ v := by
      intro he
      rw [he, hv] at hu
      cases hu
    refine ⟨?_, ?_, ?_, ?_, ?_, ?_⟩
    · intro x c hx
      have hxv : x ≠ v := by
        intro he
        rw [he, hv] at hx
        cases hx
      refine ⟨c, ?_, le_refl c⟩
      rw [lookupA_updateA_ne dist _ hxv]
      exact hx
    · intro e he
      exact List.mem_cons_of_mem _ he
    · intro x c' hx
      by_cases hxv : x = v
      · rw [hxv, lookupA_updateA_self] at hx
        exact Or.inr ⟨hxv, (Option.some_inj.mp hx).symm⟩
      · rw [lookupA_updateA_ne dist _ hxv] at hx
        exact Or.inl hx
    · intro x dx' hx
      by_cases hxv : x = v
      · rw [hxv, lookupA_updateA_self] at hx
        have hdx : dx' = d + w := (Option.some_inj.mp hx).symm
        rw [hdx, hxv]
        exact Or.inr (List.mem_cons_self _ _)
      · rw [lookupA_updateA_ne dist _ hxv] at hx
        exact Or.inl hx
    · exact ⟨d + w, lookupA_updateA_self dist v (d + w), le_refl _⟩
    · rw [lookupA_updateA_ne dist _ huv]
      exact hu
  | some dv0 =>
    by_cases hlt : d + w < dv0
    · have hs' : s = ((d + w, v) :: pq, updateA dist v (d + w)) := by
        rw [hs]
        simp only [relaxOne, hv, if_pos hlt]
      subst hs'
      have huv : u ≠ v := by
        intro he
        rw [he, hv] at hu
        have : dv0 = d := Option.some_inj.mp hu
        omega
      refine ⟨?_, ?_, ?_, ?_, ?_, ?_⟩
      · intro x c hx
        by_cases hxv : x = v
        · rw [hxv, hv] at hx
          have hc : dv0 = c := Option.some_inj.mp hx
          refine ⟨d + w, ?_, ?_⟩
          · rw [hxv]
            exact lookupA_updateA_self dist v (d + w)
          · omega
        · refine ⟨c, ?_, le_refl c⟩
          rw [lookupA_updateA_ne dist _ hxv]
          exact hx
      · intro e he
        exact List.mem_cons_of_mem _ he
      · intro x c' hx
        by_cases hxv : x = v
        · rw [hxv, lookupA_updateA_self] at hx
          exact Or.inr ⟨hxv, (Option.some_inj.mp hx).symm⟩
        · rw [lookupA_updateA_ne dist _ hxv] at hx
          exact Or.inl hx
      · intro x dx' hx
        by_cases hxv : x = v
        · rw [hxv, lookupA_updateA_self] at hx
          have hdx : dx' = d + w := (Option.some_inj.mp hx).symm
          rw [hdx, hxv]
          exact Or.inr (List.mem_cons_self _ _)
        · rw [lookupA_updateA_ne dist _ hxv] at hx
          exact Or.inl hx
      · exact ⟨d + w, lookupA_updateA_self dist v (d + w), le_refl _⟩
      · rw [lookupA_updateA_ne dist _ huv]
        exact hu
    · have hs' : s = (pq, dist) := by
        rw [hs]
        simp only [relaxOne, hv, if_neg hlt]
      subst hs'
      refine ⟨?_, ?_, ?_, ?_, ?_, ?_⟩
      · intro x c hx
        exact ⟨c, hx, le_refl c⟩
      · intro e he
        exact he
      · intro x c' hx
        exact Or.inl hx
      · intro x dx' hx
        exact Or.inl hx
      · exact ⟨dv0, hv, not_lt.mp hlt⟩
      · exact hu

/-- Effect of relaxing all arcs out of the popped node `u`. -/
theorem relaxAll_facts {d : Int} {u : Int} :
    ∀ (l : List (Int × Int)) (pq dist : List (Int × Int)),
      lookupA dist u = some d → (∀ vw ∈ l, 0 ≤ vw.2) →
      (∀ x c, lookupA dist x = some c →
        ∃ c', lookupA (relaxAll d l pq dist).2 x = some c' ∧ c' ≤ c) ∧
      (∀ e ∈ pq, e ∈ (relaxAll d l pq dist).1) ∧
      (∀ x c', lookupA (relaxAll d l pq dist).2 x = some c' →
        lookupA dist x = some c' ∨ ∃ w, (x, w) ∈ l ∧ c' = d + w) ∧
      (∀ x dx', lookupA (relaxAll d l pq dist).2 x = some dx' →
        lookupA dist x = some dx' ∨ (dx', x) ∈ (relaxAll d l pq dist).1) ∧
      (∀ vw ∈ l, ∃ dv, lookupA (relaxAll d l pq dist).2 vw.1 = some dv ∧
        dv ≤ d + vw.2) ∧
      lookupA (relaxAll d l pq dist).2 u = some d := by
  intro l
  induction l with
  | nil =>
    intro pq dist hu _
    refine ⟨?_, ?_, ?_, ?_, ?_, hu⟩
    · intro x c hx
      exact ⟨c, hx, le_refl c⟩
    · intro e he
      exact he
    · intro x c' hx
      exact Or.inl hx
    · intro x dx' hx
      exact Or.inl hx
    · intro vw hvw
      cases hvw
  | cons vw l ih =>
    intro pq dist hu hw
    have hstep := relaxOne_facts (relaxOne d (pq, dist) vw) rfl hu
      (hw vw (List.mem_cons_self vw l))
    have hall : relaxAll d (vw :: l) pq dist =
        relaxAll d l (relaxOne d (pq, dist) vw).1 (relaxOne d (pq, dist) vw).2 := by
      simp only [relaxAll, List.foldl_cons]
    have hih := ih (relaxOne d (pq, dist) vw).1 (relaxOne d (pq, dist) vw).2
      hstep.2.2.2.2.2 (fun e he => hw e (List.mem_cons_of_mem vw he))
    rw [hall]
    refine ⟨?_, ?_, ?_, ?_, ?_, hih.2.2.2.2.2⟩
    · intro x c hx
      rcases hstep.1 x c hx with ⟨c1, hc1, hle1⟩
      rcases hih.1 x c1 hc1 with ⟨c2, hc2, hle2⟩
      exact ⟨c2, hc2, le_trans hle2 hle1⟩
    · intro e he
      exact hih.2.1 e (hstep.2.1 e he)
    · intro x c' hx
      rcases hih.2.2.1 x c' hx with h1 | ⟨w, hwmem, hwc⟩
      · rcases hstep.2.2.1 x c' h1 with h2 | ⟨hxv, hc⟩
        · exact Or.inl h2
        · refine Or.inr ⟨vw.2, ?_, hc⟩
          rw [hxv]
          exact List.mem_cons_self vw l
      · exact Or.inr ⟨w, List.mem_cons_of_mem vw hwmem, hwc⟩
    · intro x dx' hx
      rcases hih.2.2.2.1 x dx' hx with h1 | h1
      · rcases hstep.2.2.2.1 x dx' h1 with h2 | h2
        · exact Or.inl h2
        · exact Or.inr (hih.2.1 _ h2)
      · exact Or.inr h1
    · intro vw' hvw'
      rcases List.mem_cons.mp hvw' with rfl | hvw''
      · rcases hstep.2.2.2.2.1 with ⟨dv, hdv, hdvle⟩
        rcases hih.1 vw'.1 dv hdv with ⟨dv2, hdv2, hle2⟩
        exact ⟨dv2, hdv2, le_trans hle2 hdvle⟩
      · exact hih.2.2.2.2.1 vw' hvw''

/-- Partial correctness of the Dijkstra loop: on termination every
entry of the final map is the cost of a walk from the source, the map
is edge-closed, and the source's entry is at most 0. -/
theorem dijkstraLoop_correct {g : Int → List (Int × Int)} {s : Int}
    (HW : ∀ u, ∀ vw ∈ g u, 0 ≤ vw.2) :
    ∀ fuel pq dist dist', DijkInv g s pq dist →
      dijkstraLoop g fuel pq dist = some dist' →
      (∀ x dx, lookupA dist' x = some dx → Reaches g s x dx) ∧
      (∀ x dx, lookupA dist' x = some dx →
        ∀ vw ∈ g x, ∃ dv, lookupA dist' vw.1 = some dv ∧ dv ≤ dx + vw.2) ∧
      (∃ ds, lookupA dist' s = some ds ∧ ds ≤ 0) := by
  intro fuel
  induction fuel with
  | zero =>
    intro pq dist dist' hinv hrun
    cases hpop : popMin pq with
    | none =>
      simp only [dijkstraLoop, hpop] at hrun
      have hd : dist = dist' := Option.some_inj.mp hrun
      subst hd
      have hempty : pq = [] := popMin_none hpop
      subst hempty
      refine ⟨hinv.1, ?_, hinv.2.2⟩
      intro x dx hx vw hvw
      rcases hinv.2.1 x dx hx with hmem | hclosed
      · cases hmem
      · exact hclosed vw hvw
    | some p =>
      simp only [dijkstraLoop, hpop] at hrun
      exact Option.noConfusion hrun
  | succ fuel ih =>
    intro pq dist dist' hinv hrun
    cases hpop : popMin pq with
    | none =>
      simp only [dijkstraLoop, hpop] at hrun
      have hd : dist = dist' := Option.some_inj.mp hrun
      subst hd
      have hempty : pq = [] := popMin_none hpop
      subst hempty
      refine ⟨hinv.1, ?_, hinv.2.2⟩
      intro x dx hx vw hvw
      rcases hinv.2.1 x dx hx with hmem | hclosed
      · cases hmem
      · exact hclosed vw hvw
    | some p =>
      rcases p with ⟨⟨d, u⟩, pq'⟩
      simp only [dijkstraLoop, hpop] at hrun
      cases hlu : lookupA dist u with
      | none =>
        simp only [hlu] at hrun
        exact Option.noConfusion hrun
      | some du =>
        simp only [hlu] at hrun
        by_cases hdu : du = d
        · rw [if_pos hdu] at hrun
          have hud : lookupA dist u = some d := by
            rw [hlu, hdu]
          have hperm := popMin_perm hpop
          have hra := relaxAll_facts (g u) pq' dist hud
            (fun vw hvw => HW u vw hvw)
          refine ih _ _ dist' ⟨?_, ?_, ?_⟩ hrun
          · intro x dx hx
            rcases hra.2.2.1 x dx hx with hold | ⟨w, hwmem, hwc⟩
            · exact hinv.1 x dx hold
            · rw [hwc]
              exact Reaches.step (hinv.1 u d hud) hwmem
          · intro x dx hx
            rcases hra.2.2.2.1 x dx hx with hold | hfresh
            · rcases hinv.2.1 x dx hold with hmem | hclosed
              · have hmem2 : (dx, x) ∈ (d, u) :: pq' := hperm.subset hmem
                rcases List.mem_cons.mp hmem2 with heq | hmem'
                · have hx_u : x = u := congrArg Prod.snd heq
                  have hdx_d : dx = d := congrArg Prod.fst heq
                  refine Or.inr ?_
                  intro vw hvw
                  rw [hx_u] at hvw
                  rcases hra.2.2.2.2.1 vw hvw with ⟨dv, hdv, hdvle⟩
                  refine ⟨dv, hdv, ?_⟩
                  rw [hdx_d]
                  exact hdvle
                · exact Or.inl (hra.2.1 _ hmem')
              · refine Or.inr ?_
                intro vw hvw
                rcases hclosed vw hvw with ⟨dv, hdv, hdvle⟩
                rcases hra.1 vw.1 dv hdv with ⟨dv2, hdv2, hle2⟩
                exact ⟨dv2, hdv2, le_trans hle2 hdvle⟩
            · exact Or.inl hfresh
          · rcases hinv.2.2 with ⟨ds, hds, hds0⟩
            rcases hra.1 s ds hds with ⟨ds2, hds2, hle2⟩
            exact ⟨ds2, hds2, le_trans hle2 hds0⟩
        · rw [if_neg hdu] at hrun
          have hperm := popMin_perm hpop
          refine ih pq' dist dist' ⟨hinv.1, ?_, hinv.2.2⟩ hrun
          intro x dx hx
          rcases hinv.2.1 x dx hx with hmem | hclosed
          · have hmem2 : (dx, x) ∈ (d, u) :: pq' := hperm.subset hmem
            rcases List.mem_cons.mp hmem2 with heq | hmem'
            · exfalso
              have hx_u : x = u := congrArg Prod.snd heq
              have hdx_d : dx = d := congrArg Prod.fst heq
              rw [hx_u, hlu] at hx
              have : du = dx := Option.some_inj.mp hx
              rw [hdx_d] at this
              exact hdu this
            · exact Or.inl hmem'
          · exact Or.inr hclosed

/-- Correctness of `dijkstra` under nonnegative arc weights: every
returned entry is the cost of a walk from the source, and every walk's
cost bounds the returned entry for its endpoint from above — together,
each entry is the shortest-walk distance, and exactly the reachable
nodes have entries. -/
theorem dijkstra_correct {g : Int → List (Int × Int)} {s : Int}
    {fuel : Nat} {dist' : List (Int × Int)}
    (HW : ∀ u, ∀ vw ∈ g u, 0 ≤ vw.2)
    (h : dijkstra fuel s g = some dist') :
    (∀ x dx, lookupA dist' x = some dx → Reaches g s x dx) ∧
    (∀ x c, Reaches g s x c → ∃ dx, lookupA dist' x = some dx ∧ dx ≤ c) := by
  have hinv : DijkInv g s [(0, s)] [(s, 0)] := by
    refine ⟨?_, ?_, ⟨0, ?_, le_refl 0⟩⟩
    · intro x dx hx
      simp only [lookupA] at hx
      by_cases hxs : s = x
      · rw [if_pos hxs] at hx
        have h0 : (0 : Int) = dx := Option.some_inj.mp hx
        rw [← hxs, ← h0]
        exact Reaches.refl s
      · rw [if_neg hxs] at hx
        cases hx
    · intro x dx hx
      simp only [lookupA] at hx
      by_cases hxs : s = x
      · rw [if_pos hxs] at hx
        have h0 : (0 : Int) = dx := Option.some_inj.mp hx
        refine Or.inl ?_
        rw [← hxs, ← h0]
        exact List.mem_singleton.mpr rfl
      · rw [if_neg hxs] at hx
        cases hx
    · simp [lookupA]
  have hres := dijkstraLoop_correct HW fuel [(0, s)] [(s, 0)] dist' hinv h
  refine ⟨hres.1, ?_⟩
  intro x c hreach
  induction hreach with
  | refl =>
    rcases hres.2.2 with ⟨ds, hds, hds0⟩
    exact ⟨ds, hds, hds0⟩
  | step hr e ihh =>
    rcases ihh with ⟨db, hdb, hdble⟩
    rcases hres.2.1 _ db hdb _ e with ⟨dv, hdv, hdvle⟩
    refine ⟨dv, hdv, ?_⟩
    have hdvle2 : dv ≤ db + _ := hdvle
    omega

/-- One build step preserves symmetry of the adjacency map. -/
theorem buildStep_symm {g g' : Int → List (Int × Int)} {e : JEdge}
    (h : buildStep g e = some g')
    (hs : ∀ u v w, (v, w) ∈ g u → (u, w) ∈ g v) :
    ∀ u v w, (v, w) ∈ g' u → (u, w) ∈ g' v := by
  unfold buildStep at h
  cases hfe : toIntV e.fee with
  | none =>
    rw [hfe] at h
    exact Option.noConfusion h
  | some w0 =>
    rw [hfe] at h
    simp only [Option.map_some'] at h
    have hg' := Option.some_inj.mp h
    intro u v w hm
    rw [← hg'] at hm ⊢
    simp only [List.mem_append] at hm ⊢
    rcases hm with (hm | hm) | hm
    · exact Or.inl (Or.inl (hs u v w hm))
    · by_cases hc1 : e.c1 = u
      · rw [if_pos hc1] at hm
        rcases List.mem_singleton.mp hm with hvw
        have hv : e.c2 = v := (congrArg Prod.fst hvw).symm
        have hw : w0 = w := (congrArg Prod.snd hvw).symm
        refine Or.inr ?_
        rw [if_pos hv, ← hw, ← hc1]
        exact List.mem_singleton.mpr rfl
      · rw [if_neg hc1] at hm
        cases hm
    · by_cases hc2 : e.c2 = u
      · rw [if_pos hc2] at hm
        rcases List.mem_singleton.mp hm with hvw
        have hv : e.c1 = v := (congrArg Prod.fst hvw).symm
        have hw : w0 = w := (congrArg Prod.snd hvw).symm
        refine Or.inl (Or.inr ?_)
        rw [if_pos hv, ← hw, ← hc2]
        exact List.mem_singleton.mpr rfl
      · rw [if_neg hc2] at hm
        cases hm

/-- One build step preserves nonnegativity of the arc weights. -/
theorem buildStep_nonneg {g g' : Int → List (Int × Int)} {e : JEdge}
    (h : buildStep g e = some g')
    (hf : ∀ k, toIntV e.fee = some k → 0 ≤ k)
    (hn : ∀ u, ∀ vw ∈ g u, 0 ≤ vw.2) :
    ∀ u, ∀ vw ∈ g' u, 0 ≤ vw.2 := by
  unfold buildStep at h
  cases hfe : toIntV e.fee with
  | none =>
    rw [hfe] at h
    exact Option.noConfusion h
  | some w0 =>
    rw [hfe] at h
    simp only [Option.map_some'] at h
    have hg' := Option.some_inj.mp h
    intro u vw hm
    rw [← hg'] at hm
    simp only [List.mem_append] at hm
    have hw0 : 0 ≤ w0 := hf w0 hfe
    rcases hm with (hm | hm) | hm
    · exact hn u vw hm
    · by_cases hc1 : e.c1 = u
      · rw [if_pos hc1] at hm
        rw [List.mem_singleton.mp hm]
        exact hw0
      · rw [if_neg hc1] at hm
        cases hm
    · by_cases hc2 : e.c2 = u
      · rw [if_pos hc2] at hm
        rw [List.mem_singleton.mp hm]
        exact hw0
      · rw [if_neg hc2] at hm
        cases hm

/-- The built graph is symmetric (fold version). -/
theorem build_fold_symm :
    ∀ (subway : List JEdge) (g0 g : Int → List (Int × Int)),
      subway.foldlM buildStep g0 = some g →
      (∀ u v w, (v, w) ∈ g0 u → (u, w) ∈ g0 v) →
      ∀ u v w, (v, w) ∈ g u → (u, w) ∈ g v := by
  intro subway
  induction subway with
  | nil =>
    intro g0 g h hs
    have hg : g0 = g := Option.some_inj.mp h
    rw [← hg]
    exact hs
  | cons e rest ih =>
    intro g0 g h hs
    rw [List.foldlM_cons] at h
    cases hfe : buildStep g0 e with
    | none =>
      rw [hfe] at h
      exact Option.noConfusion h
    | some g1 =>
      rw [hfe] at h
      exact ih g1 g h (buildStep_symm hfe hs)

/-- The built graph has nonnegative weights (fold version). -/
theorem build_fold_nonneg :
    ∀ (subway : List JEdge) (g0 g : Int → List (Int × Int)),
      subway.foldlM buildStep g0 = some g →
      (∀ e ∈ subway, ∀ k, toIntV e.fee = some k → 0 ≤ k) →
      (∀ u, ∀ vw ∈ g0 u, 0 ≤ vw.2) →
      ∀ u, ∀ vw ∈ g u, 0 ≤ vw.2 := by
  intro subway
  induction subway with
  | nil =>
    intro g0 g h _ hn
    have hg : g0 = g := Option.some_inj.mp h
    rw [← hg]
    exact hn
  | cons e rest ih =>
    intro g0 g h hf hn
    rw [List.foldlM_cons] at h
    cases hfe : buildStep g0 e with
    | none =>
      rw [hfe] at h
      exact Option.noConfusion h
    | some g1 =>
      rw [hfe] at h
      exact ih g1 g h (fun e' he' => hf e' (List.mem_cons_of_mem e he'))
        (buildStep_nonneg hfe (hf e (List.mem_cons_self e rest)) hn)

/-- C7: the distance table is symmetric: for any two sources `a`, `b`,
the entry of `a`'s Dijkstra run at `b` coincides with the entry of
`b`'s run at `a` (both absent when unreachable), because every subway
edge contributes two directed arcs of equal (nonnegative) weight. -/
theorem C7_distance_symmetry (subway : List JEdge)
    (g : Int → List (Int × Int)) (hg : build_graph subway = some g)
    (hfees : ∀ e ∈ subway, ∀ k, toIntV e.fee = some k → 0 ≤ k)
    (a b : Int) (fa fb : Nat) (da db : List (Int × Int))
    (hda : dijkstra fa a g = some da) (hdb : dijkstra fb b g = some db) :
    lookupA da b = lookupA db a := by
  have HW : ∀ u, ∀ vw ∈ g u, 0 ≤ vw.2 :=
    build_fold_nonneg subway (fun _ => []) g hg hfees
      (by intro u vw hm; cases hm)
  have hsym : ∀ u v w, (v, w) ∈ g u → (u, w) ∈ g v :=
    build_fold_symm subway (fun _ => []) g hg (by intro u v w hm; cases hm)
  have hca := dijkstra_correct HW hda
  have hcb := dijkstra_correct HW hdb
  cases h1 : lookupA da b with
  | none =>
    cases h2 : lookupA db a with
    | none => rfl
    | some cb =>
      exfalso
      have hr := Reaches.symm hsym (hcb.1 a cb h2)
      rcases hca.2 b cb hr with ⟨dx, hdx, _⟩
      rw [h1] at hdx
      exact Option.noConfusion hdx
  | some ca =>
    cases h2 : lookupA db a with
    | none =>
      exfalso
      have hr := Reaches.symm hsym (hca.1 b ca h1)
      rcases hcb.2 a ca hr with ⟨dx, hdx, _⟩
      rw [h2] at hdx
      exact Option.noConfusion hdx
    | some cb =>
      have hra := hca.1 b ca h1
      have hrb := hcb.1 a cb h2
      have hle1 : ca ≤ cb := by
        rcases hca.2 b cb (Reaches.symm hsym hrb) with ⟨dx, hdx, hle⟩
        rw [h1] at hdx
        have he : ca = dx := Option.some_inj.mp hdx
        omega
      have hle2 : cb ≤ ca := by
        rcases hcb.2 a ca (Reaches.symm hsym hra) with ⟨dx, hdx, hle⟩
        rw [h2] at hdx
        have he : cb = dx := Option.some_inj.mp hdx
        omega
      rw [le_antisymm hle1 hle2]

/-- C7 (witness): on the concrete one-edge subway `1 —5— 2`, the
distance from 1 to 2 equals the distance from 2 to 1. -/
theorem C7_witness : lookupA wDa 2 = lookupA wDb 1 :=
  C7_distance_symmetry wSubway wG (by rfl)
    (by
      intro e he k hk
      rcases List.mem_singleton.mp he with rfl
      have h5 : (5 : Int) = k := Option.some_inj.mp hk
      omega)
    1 2 10 10 wDa wDb (by rfl) (by rfl)

end PrincessDiaries
